import Mathlib

set_option maxHeartbeats 1600000

/-- Sign-style comparison of two naturals, mirroring the C++ template
derived_cmp in datum.cc (lines 1369-1373): 0 when equal, -1 when the first
is smaller, 1 otherwise. -/
def ordCmp (a b : Nat) : Int := if a = b then 0 else if a < b then -1 else 1

/-- Bytewise comparison of two byte strings with the semantics of
memcmp / std::string::compare restricted to its sign: the first differing
byte decides; a proper prefix is smaller. -/
def memcmpBytes : List Nat → List Nat → Int
  | [], [] => 0
  | [], _ :: _ => -1
  | _ :: _, [] => 1
  | a :: as, b :: bs => if a < b then -1 else if b < a then 1 else memcmpBytes as bs

/-- Strict bytewise order witnessed by a common position: the two lists agree
on a common prefix and then hold bytes x < y.  Stronger than lexicographic
less-than because it excludes the proper-prefix case; this is the invariant
that survives concatenation with arbitrary suffixes. -/
def LtB (xs ys : List Nat) : Prop :=
  ∃ p x y xs2 ys2, xs = p ++ x :: xs2 ∧ ys = p ++ y :: ys2 ∧ x < y

/-- The version regimes of the comparison machinery (reql_version_t);
the source comments state that v1_15 is the same as v1_14, so the enum has
exactly these three members (datum.cc lines 383-387, 1438-1448). -/
inductive ReqlVersion : Type
  | v1_13 : ReqlVersion
  | v1_14 : ReqlVersion
  | v1_16_is_latest : ReqlVersion
deriving DecidableEq, Repr

/-- Error kinds of base_exc_t used by the datum core.  GENERIC and
NON_EXISTENCE appear in datum.cc; TOO_LARGE is the kind the spec names for
oversized arrays and is carried so that theorems can compare against it. -/
inductive ExcKind : Type
  | GENERIC : ExcKind
  | NON_EXISTENCE : ExcKind
  | TOO_LARGE : ExcKind
deriving DecidableEq, Repr

/-- Failure modes: `exc k` is a catchable exception of kind k (rfail /
rcheck / throw exc_t); `abort` is a fatal, non-catchable failure
(guarantee / r_sanity_check / unreachable). -/
inductive Err : Type
  | exc (k : ExcKind) : Err
  | abort : Err
deriving DecidableEq, Repr

/-- The datum value algebra (datum_t).  BINARY is a distinct in-memory
variant (datum.cc lines 78-80); ARRAY holds a datum list; OBJECT holds
key/value pairs whose keys are byte strings (datum_string_t), kept in
ascending bytewise order by every constructor (datum.cc lines 95-108).
Buffer-backed forms are observationally identical to the materialized
forms and are not distinguished here; UNINITIALIZED datums never enter
the operations these claims are about. -/
inductive Datum : Type
  | null : Datum
  | bool (b : Bool) : Datum
  | num (bits : Nat) : Datum
  | str (s : List Nat) : Datum
  | bin (s : List Nat) : Datum
  | arr (elems : List Datum) : Datum
  | obj (pairs : List (List Nat × Datum)) : Datum
deriving Repr

/-- Modelled from the spec: MAX_KEY_SIZE lives in the storage layer
(btree keys header, not under src/); the spec fixes it as
"storage-defined, typically 250" and every size computation in datum.cc
is relative to it. -/
def MAX_KEY_SIZE : Nat := 250

/-- Modelled from the spec: rdb_protocol::MAX_PRIMARY_KEY_SIZE (protocol
header, not under src/).  The spec leaves the value storage-defined; 128 is
the value compatible with the secondary-key layout arithmetic
(MAX_PRIMARY_KEY_SIZE + tag_size + 2 ≤ MAX_KEY_SIZE).  The theorems below
depend only on that inequality. -/
def MAX_PRIMARY_KEY_SIZE : Nat := 128

/-- Size in bytes of the secondary-index tag (datum.cc line 30). -/
def tagSize : Nat := 8

/-- Byte string of the object key reserved for pseudotypes,
"$reql_type$" (datum.cc line 34). -/
def reqlTypeKey : List Nat := [36, 114, 101, 113, 108, 95, 116, 121, 112, 101, 36]

/-- Byte string "LITERAL" (pseudo::literal_string). -/
def literalName : List Nat := [76, 73, 84, 69, 82, 65, 76]

/-- Byte string "TIME" (pseudo::time_string). -/
def timeName : List Nat := [84, 73, 77, 69]

/-- Byte string "GEOMETRY" (pseudo::geometry_string). -/
def geometryName : List Nat := [71, 69, 79, 77, 69, 84, 82, 89]

/-- Byte string "BINARY" (pseudo::binary_string). -/
def binaryName : List Nat := [66, 73, 78, 65, 82, 89]

/-- Byte string "value" (pseudo::value_key), the payload field of a
$literal pseudotype. -/
def valueKey : List Nat := [118, 97, 108, 117, 101]

/-- Byte string "epoch_time", the numeric payload field of a TIME
pseudotype (named by the spec in the pseudotype table). -/
def epochTimeKey : List Nat := [101, 112, 111, 99, 104, 95, 116, 105, 109, 101]

/-- Byte string "data", the base64 payload field of a BINARY pseudotype
(datum.cc line 39). -/
def dataKey : List Nat := [100, 97, 116, 97]

/-- Modelled from the spec: utf8::is_valid (parsing/utf8.cc, not under
src/).  The spec requires strings to be "well-formed UTF-8", so this is the
RFC 3629 well-formedness check: no overlong encodings, no surrogates, no
code points beyond U+10FFFF, correct continuation bytes. -/
def utf8Valid : List Nat → Bool
  | [] => true
  | b :: r =>
    if b < 0x80 then utf8Valid r
    else if b < 0xC2 then false
    else if b < 0xE0 then
      match r with
      | c1 :: r1 => 0x80 ≤ c1 && c1 < 0xC0 && utf8Valid r1
      | [] => false
    else if b < 0xF0 then
      match r with
      | c1 :: c2 :: r2 =>
        (if b = 0xE0 then 0xA0 ≤ c1 && c1 < 0xC0
         else if b = 0xED then 0x80 ≤ c1 && c1 < 0xA0
         else 0x80 ≤ c1 && c1 < 0xC0)
        && (0x80 ≤ c2 && c2 < 0xC0) && utf8Valid r2
      | _ => false
    else if b < 0xF5 then
      match r with
      | c1 :: c2 :: c3 :: r3 =>
        (if b = 0xF0 then 0x90 ≤ c1 && c1 < 0xC0
         else if b = 0xF4 then 0x80 ≤ c1 && c1 < 0x90
         else 0x80 ≤ c1 && c1 < 0xC0)
        && (0x80 ≤ c2 && c2 < 0xC0) && (0x80 ≤ c3 && c3 < 0xC0) && utf8Valid r3
      | _ => false
    else false

/-- The version-gated string validation fail_if_invalid (datum.cc lines
381-401): v1_13 and v1_14 perform no check at all; only v1_16_is_latest
validates UTF-8 and raises GENERIC on failure. -/
def failIfInvalid (v : ReqlVersion) (s : List Nat) : Except Err Unit :=
  match v with
  | .v1_13 => .ok ()
  | .v1_14 => .ok ()
  | .v1_16_is_latest =>
    if utf8Valid s then .ok () else .error (.exc .GENERIC)

/-- The NUL check check_str_validity (datum.cc lines 469-481): raises
GENERIC when the bytes contain a NUL byte. -/
def checkStrValidity (s : List Nat) : Except Err Unit :=
  if 0 ∈ s then .error (.exc .GENERIC) else .ok ()

/-- The string constructor datum_t(datum_string_t) (datum.cc lines
273-275): it runs only check_str_validity; no UTF-8 validation happens
here under any version. -/
def mkStr (s : List Nat) : Except Err Datum := do
  checkStrValidity s
  pure (Datum.str s)

/-- Modelled from the spec together with the call sites: rcheck_array_size
(error header, not under src/) enforces the configurable array_size_limit,
raising the exception kind passed at the call site when size exceeds the
limit.  The consistency checks visible in datum.cc (stats_merge line 1664,
add_warning line 1737) show the passing condition is size ≤ limit. -/
def rcheckArraySize (n limit : Nat) (k : ExcKind) : Except Err Unit :=
  if n > limit then .error (.exc k) else .ok ()

/-- The size-checked array constructor datum_t(std::vector&&, limits)
(datum.cc lines 279-283): checks the limit with kind GENERIC. -/
def mkArrayD (elems : List Datum) (limit : Nat) : Except Err Datum := do
  rcheckArraySize elems.length limit .GENERIC
  pure (Datum.arr elems)

/-- List insertion at an index, the effect of vector.insert(begin()+i, v)
for i ≤ length. -/
def listInsertAt (l : List Datum) (i : Nat) (v : Datum) : List Datum :=
  l.take i ++ v :: l.drop i

/-- datum_array_builder_t::add (datum.cc lines 1832-1835): push back, then
check the size limit (kind GENERIC) under every version. -/
def abAdd (limit : Nat) (vec : List Datum) (val : Datum) :
    Except Err (List Datum) := do
  let v := vec ++ [val]
  rcheckArraySize v.length limit .GENERIC
  pure v

/-- datum_array_builder_t::change (datum.cc lines 1837-1843): bounds check
(NON_EXISTENCE) and overwrite; no size-limit check exists on this path. -/
def abChange (vec : List Datum) (i : Nat) (val : Datum) :
    Except Err (List Datum) :=
  if i < vec.length then .ok (vec.set i val)
  else .error (.exc .NON_EXISTENCE)

/-- datum_array_builder_t::insert (datum.cc lines 1845-1863): bounds check
(NON_EXISTENCE), insert, then a version switch: v1_13 skips the size-limit
check, v1_14 and v1_16_is_latest run it with kind GENERIC. -/
def abInsert (limit : Nat) (v : ReqlVersion) (vec : List Datum) (i : Nat)
    (val : Datum) : Except Err (List Datum) := do
  if i ≤ vec.length then
    let vec2 := listInsertAt vec i val
    match v with
    | .v1_13 => pure vec2
    | .v1_14 => do rcheckArraySize vec2.length limit .GENERIC; pure vec2
    | .v1_16_is_latest => do rcheckArraySize vec2.length limit .GENERIC; pure vec2
  else .error (.exc .NON_EXISTENCE)

/-- datum_array_builder_t::splice (datum.cc lines 1865-1894): bounds check,
splice the values of an ARRAY datum in, then the same version switch as
insert (v1_13 unchecked, v1_14+ checked with GENERIC).  Reading the values
out of a non-ARRAY datum raises GENERIC (arr_size type check). -/
def abSplice (limit : Nat) (v : ReqlVersion) (vec : List Datum) (i : Nat)
    (values : Datum) : Except Err (List Datum) := do
  if i ≤ vec.length then
    match values with
    | .arr vals =>
      let vec2 := vec.take i ++ vals ++ vec.drop i
      match v with
      | .v1_13 => pure vec2
      | .v1_14 => do rcheckArraySize vec2.length limit .GENERIC; pure vec2
      | .v1_16_is_latest => do rcheckArraySize vec2.length limit .GENERIC; pure vec2
    | _ => .error (.exc .GENERIC)
  else .error (.exc .NON_EXISTENCE)

/-- datum_array_builder_t::to_datum (datum.cc lines 1940-1948): calls the
non-checking datum constructor, so no size check happens here. -/
def abToDatum (vec : List Datum) : Datum := Datum.arr vec

/-- datum_t::as_bool (datum.cc lines 1085-1091): returns the stored value
for BOOL and otherwise reports whether the variant is not NULL; it raises
no error on any input, in contrast with the checked accessors as_num,
as_str, as_binary. -/
def asBool : Datum → Except Err Bool
  | .bool b => .ok b
  | .null => .ok false
  | _ => .ok true

/-- datum_t::as_num (datum.cc lines 1092-1095): check_type(R_NUM) raises
GENERIC on any other variant, then returns the stored bits. -/
def asNum : Datum → Except Err Nat
  | .num b => .ok b
  | _ => .error (.exc .GENERIC)

/-- datum_t::as_str (datum.cc lines 1143-1146): GENERIC type error unless
the variant is STR. -/
def asStr : Datum → Except Err (List Nat)
  | .str s => .ok s
  | _ => .error (.exc .GENERIC)

/-- datum_t::as_binary (datum.cc lines 1138-1141): GENERIC type error
unless the variant is BINARY. -/
def asBinary : Datum → Except Err (List Nat)
  | .bin s => .ok s
  | _ => .error (.exc .GENERIC)

/-- Division by two, written structurally so that index arithmetic inside
the binary search reduces definitionally (Nat division does not). -/
def half : Nat → Nat
  | 0 => 0
  | 1 => 0
  | n + 2 => half n + 1

/-- Binary search over the sorted key/value vector, the exact loop of
datum_t::get_field (datum.cc lines 1206-1232): maintain a half-open range,
probe the middle pair at bg + (ed - bg) / 2, and narrow by the bytewise
key comparison.  Returns the value on a hit and nothing on a miss (the
NOTHROW behaviour).  The loop carries an explicit iteration bound
(initially the range length, which the loop never exhausts) so that the
function is structurally recursive and evaluates inside the kernel. -/
def bsearchGo (pairs : List (List Nat × Datum)) (key : List Nat) :
    Nat → Nat → Nat → Option Datum
  | _, _, 0 => none
  | bg, ed, fuel + 1 =>
    if bg < ed then
      match pairs[bg + half (ed - bg)]? with
      | none => none
      | some pr =>
        if memcmpBytes key pr.1 = 0 then some pr.2
        else if memcmpBytes key pr.1 < 0 then
          bsearchGo pairs key bg (bg + half (ed - bg)) fuel
        else bsearchGo pairs key (bg + half (ed - bg) + 1) ed fuel
    else none

/-- See bsearchGo: the search over a half-open range. -/
def bsearchF (pairs : List (List Nat × Datum)) (key : List Nat)
    (bg ed : Nat) : Option Datum :=
  bsearchGo pairs key bg ed (ed - bg)

/-- datum_t::get_field with NOTHROW (datum.cc lines 1206-1232) on an OBJECT
datum; every call site in the modelled code is guarded by an OBJECT type
check, so the non-object case is never consulted. -/
def getFieldD (d : Datum) (key : List Nat) : Option Datum :=
  match d with
  | .obj pairs => bsearchF pairs key 0 pairs.length
  | _ => none

/-- A found binary-search value is a value of one of the probed pairs, so
its size is below the size of the pair list; this certificate justifies
the termination of drop_literals, which recurses into a found field. -/
def bsearchSize (pairs : List (List Nat × Datum)) (key : List Nat)
    (fuel bg ed : Nat) (v : Datum)
    (h : bsearchGo pairs key bg ed fuel = some v) : sizeOf v < sizeOf pairs := by
  induction fuel generalizing bg ed with
  | zero => exact absurd h (by simp [bsearchGo])
  | succ fuel ih =>
    rw [bsearchGo] at h
    split at h
    · split at h
      · exact absurd h (by simp)
      next pr hpr =>
        have hmem : pr ∈ pairs := List.getElem?_mem hpr
        have h1 : sizeOf pr < sizeOf pairs := List.sizeOf_lt_of_mem hmem
        split at h
        · cases h
          cases pr with
          | mk a b => simp at h1 ⊢; omega
        · split at h
          · exact ih _ _ h
          · exact ih _ _ h
    · exact absurd h (by simp)

/-- The size certificate of a found field (see bsearchSize). -/
def getFieldSize (d : Datum) (key : List Nat) (v : Datum)
    (h : getFieldD d key = some v) : sizeOf v < sizeOf d := by
  cases d <;> simp [getFieldD, bsearchF] at h
  next pairs =>
    have := bsearchSize pairs key pairs.length 0 pairs.length v h
    simp
    omega

/-- The option together with the defining equation of its content; the
match on it branches exactly like a match on the option itself and the
equation serves as a termination certificate. -/
def optAttach : (o : Option Datum) → Option {v : Datum // o = some v}
  | some v => some ⟨v, rfl⟩
  | none => none

/-- datum_t::is_ptype (datum.cc lines 494-497): BINARY, or an OBJECT whose
sorted pairs contain the $reql_type$ key. -/
def isPtype : Datum → Bool
  | .bin _ => true
  | .obj ps => (bsearchF ps reqlTypeKey 0 ps.length).isSome
  | _ => false

/-- datum_t::get_reql_type (datum.cc lines 503-519): BINARY answers
"BINARY"; otherwise the $reql_type$ field must exist (sanity check) and be
a STR (GENERIC otherwise). -/
def getReqlType (d : Datum) : Except Err (List Nat) :=
  if isPtype d then
    match d with
    | .bin _ => .ok binaryName
    | .obj ps =>
      match bsearchF ps reqlTypeKey 0 ps.length with
      | some (.str r) => .ok r
      | some _ => .error (.exc .GENERIC)
      | none => .error .abort
    | _ => .error .abort
  else .error .abort

/-- datum_t::pseudo_compares_as_obj (datum.cc lines 687-696): only the
GEOMETRY pseudotype compares as a plain object. -/
def pseudoComparesAsObj (d : Datum) : Except Err Bool := do
  let r ← getReqlType d
  pure (r = geometryName)

/-- The combination is_ptype() && !pseudo_compares_as_obj() computed for
each side at the top of modern_cmp (datum.cc lines 1451-1452). -/
def cmpAsPtype (d : Datum) : Except Err Bool :=
  if isPtype d then do
    let c ← pseudoComparesAsObj d
    pure (!c)
  else pure false

/-- The prefix "PTYPE<" of pseudotype type names (datum.cc line 537). -/
def ptypeNamePre : List Nat := [80, 84, 89, 80, 69, 60]

/-- raw_type_name (datum.cc lines 521-533); R_BINARY already answers
"PTYPE<BINARY>" here. -/
def rawTypeName : Datum → List Nat
  | .null => [78, 85, 76, 76]
  | .bin _ => ptypeNamePre ++ binaryName ++ [62]
  | .bool _ => [66, 79, 79, 76]
  | .num _ => [78, 85, 77, 66, 69, 82]
  | .str _ => [83, 84, 82, 73, 78, 71]
  | .arr _ => [65, 82, 82, 65, 89]
  | .obj _ => [79, 66, 74, 69, 67, 84]

/-- datum_t::get_type_name (datum.cc lines 535-541): "PTYPE<" ++ reql type
++ ">" for pseudotypes, raw_type_name otherwise. -/
def typeName (d : Datum) : Except Err (List Nat) :=
  if isPtype d then do
    let r ← getReqlType d
    pure (ptypeNamePre ++ r ++ [62])
  else pure (rawTypeName d)

/-- Modelled from the spec: the numeric values of the datum_t::type_t
enumeration (datum.hpp, which is not under src/).  The members are ordered
like their type-name strings (ARRAY, BINARY, BOOL, NULL, NUM, OBJECT, STR);
this is the one assignment consistent with the source that is present:
the mixed pseudotype/non-pseudotype branch of modern_cmp compares full
type-name strings (datum.cc line 1459), so any other enum order would make
the comparator intransitive, and the key-encoder comment "we need to
prepend P ... so that different pseudotypes sort correctly" (datum.cc
lines 600-602) together with the one-byte variant tags A, B, N, S relies
on this order.  (The spec sentence giving a fixed rank NULL < BOOL < NUM <
STR < ARRAY < OBJECT contradicts both of those source facts; see the
correction of the key-order agreement claim.) -/
def typeRank : Datum → Nat
  | .arr _ => 1
  | .bin _ => 2
  | .bool _ => 3
  | .null => 4
  | .num _ => 5
  | .obj _ => 6
  | .str _ => 7

/-- Comparison of two finite IEEE-754 binary64 values expressed on their
64-bit patterns: sign bit then magnitude, with +0 and -0 equal.  This is
derived_cmp on doubles (datum.cc line 1388/1468) for the finite values a
datum can hold (the constructor rejects non-finite numbers, datum.cc lines
268-271). -/
def doubleCmp (a b : Nat) : Int :=
  let sa := a / 2 ^ 63
  let ma := a % 2 ^ 63
  let sb := b / 2 ^ 63
  let mb := b % 2 ^ 63
  if ma = 0 ∧ mb = 0 then 0
  else if sa ≠ sb then (if sa = 1 then -1 else 1)
  else if sa = 0 then ordCmp ma mb
  else ordCmp mb ma

/-- Modelled from the spec: pseudo::time_cmp (pseudo_time.cc, not under
src/).  The spec only states that TIME carries a numeric epoch_time field
and is orderable, so TIME values are compared by that field; the
reql_version parameter of the source function is not observable from the
spec and is ignored.  No theorem below depends on this model. -/
def getEpochBits (d : Datum) : Except Err Nat :=
  match d with
  | .obj ps =>
    match bsearchF ps epochTimeKey 0 ps.length with
    | some (.num bits) => .ok bits
    | _ => .error (.exc .GENERIC)
  | _ => .error (.exc .GENERIC)

/-- Modelled from the spec: comparison of two TIME pseudotypes by their
epoch_time field (see getEpochBits). -/
def timeCmpModel (a b : Datum) : Except Err Int := do
  let x ← getEpochBits a
  let y ← getEpochBits b
  pure (doubleCmp x y)

/-- datum_t::pseudo_cmp (datum.cc lines 676-685): BINARY compares by bytes
(as_binary on both sides, so a non-BINARY right side raises GENERIC); TIME
delegates to the time comparator; every other pseudotype is incomparable
(GENERIC). -/
def pseudoCmp (_v : ReqlVersion) (a b : Datum) : Except Err Int :=
  if isPtype a then
    match a with
    | .bin s => do
      let t ← asBinary b
      pure (memcmpBytes s t)
    | _ => do
      let r ← getReqlType a
      if r = timeName then timeCmpModel a b
      else .error (.exc .GENERIC)
  else .error .abort

/-- The helper derived_cmp applied to bool (false < true). -/
def boolRank (b : Bool) : Nat := if b then 1 else 0

mutual
/-- datum_t::modern_cmp (datum.cc lines 1450-1509), the v1_14/v1_16
comparator: pseudotype handling first (same-pseudotype by $reql_type$ then
pseudo_cmp at v1_16_is_latest; mixed by full type-name strings), then the
type_t rank, then the per-variant comparison; arrays are lexicographic and
objects compare their sorted pairs in parallel. -/
def modernCmp (a b : Datum) : Except Err Int := do
  let lp ← cmpAsPtype a
  let rp ← cmpAsPtype b
  if lp && rp then do
    let ra ← getReqlType a
    let rb ← getReqlType b
    if ra ≠ rb then pure (memcmpBytes ra rb)
    else pseudoCmp .v1_16_is_latest a b
  else if lp || rp then do
    let na ← typeName a
    let nb ← typeName b
    pure (memcmpBytes na nb)
  else if typeRank a ≠ typeRank b then pure (ordCmp (typeRank a) (typeRank b))
  else
    match a, b with
    | .null, .null => pure 0
    | .bool x, .bool y => pure (ordCmp (boolRank x) (boolRank y))
    | .num x, .num y => pure (doubleCmp x y)
    | .str x, .str y => pure (memcmpBytes x y)
    | .arr x, .arr y => modernCmpList x y
    | .obj x, .obj y => modernCmpPairs x y
    | _, _ => .error .abort
  termination_by sizeOf a

/-- Element-by-element array comparison of modern_cmp (datum.cc lines
1470-1481): first difference decides, else the shorter array is smaller. -/
def modernCmpList (x y : List Datum) : Except Err Int :=
  match x, y with
  | [], [] => pure 0
  | [], _ :: _ => pure (-1)
  | _ :: _, [] => pure 1
  | a :: as_, b :: bs => do
    let c ← modernCmp a b
    if c ≠ 0 then pure c else modernCmpList as_ bs
  termination_by sizeOf x

/-- Parallel sorted-pair comparison of modern_cmp on objects (datum.cc
lines 1482-1504): key bytes first, then the value, else the shorter object
is smaller. -/
def modernCmpPairs (x y : List (List Nat × Datum)) : Except Err Int :=
  match x, y with
  | [], [] => pure 0
  | [], _ :: _ => pure (-1)
  | _ :: _, [] => pure 1
  | (k1, v1) :: ps, (k2, v2) :: qs =>
    let kc := memcmpBytes k1 k2
    if kc ≠ 0 then pure kc
    else do
      let vc ← modernCmp v1 v2
      if vc ≠ 0 then pure vc else modernCmpPairs ps qs
  termination_by sizeOf x
end

mutual
/-- datum_t::v1_13_cmp (datum.cc lines 1375-1436): any pseudotype sorts
after any non-pseudotype; then type_t rank; then per-variant comparison.
Pseudotype OBJECTs that do not compare as objects use $reql_type$ then
pseudo_cmp at v1_13.  Two BINARY datums fall into the R_BINARY switch case,
which is unreachable() — a fatal abort. -/
def v113Cmp (a b : Datum) : Except Err Int :=
  if isPtype a && !isPtype b then pure 1
  else if !isPtype a && isPtype b then pure (-1)
  else if typeRank a ≠ typeRank b then pure (ordCmp (typeRank a) (typeRank b))
  else
    match a, b with
    | .null, .null => pure 0
    | .bool x, .bool y => pure (ordCmp (boolRank x) (boolRank y))
    | .num x, .num y => pure (doubleCmp x y)
    | .str x, .str y => pure (memcmpBytes x y)
    | .arr x, .arr y => v113CmpList x y
    | .obj x, .obj y => do
      let lp ← cmpAsPtype (.obj x)
      if lp then do
        let ra ← getReqlType (.obj x)
        let rb ← getReqlType (.obj y)
        if ra ≠ rb then pure (memcmpBytes ra rb)
        else pseudoCmp .v1_13 (.obj x) (.obj y)
      else v113CmpPairs x y
    | _, _ => .error .abort
  termination_by sizeOf a

/-- Array comparison of v1_13_cmp (datum.cc lines 1390-1401). -/
def v113CmpList (x y : List Datum) : Except Err Int :=
  match x, y with
  | [], [] => pure 0
  | [], _ :: _ => pure (-1)
  | _ :: _, [] => pure 1
  | a :: as_, b :: bs => do
    let c ← v113Cmp a b
    if c ≠ 0 then pure c else v113CmpList as_ bs
  termination_by sizeOf x

/-- Parallel pair comparison of v1_13_cmp on objects (datum.cc lines
1408-1430). -/
def v113CmpPairs (x y : List (List Nat × Datum)) : Except Err Int :=
  match x, y with
  | [], [] => pure 0
  | [], _ :: _ => pure (-1)
  | _ :: _, [] => pure 1
  | (k1, v1) :: ps, (k2, v2) :: qs =>
    let kc := memcmpBytes k1 k2
    if kc ≠ 0 then pure kc
    else do
      let vc ← v113Cmp v1 v2
      if vc ≠ 0 then pure vc else v113CmpPairs ps qs
  termination_by sizeOf x
end

/-- datum_t::cmp (datum.cc lines 1438-1448): v1_13 uses the legacy
comparator, v1_14 and v1_16_is_latest both use modern_cmp. -/
def cmpVer : ReqlVersion → Datum → Datum → Except Err Int
  | .v1_13, a, b => v113Cmp a b
  | .v1_14, a, b => modernCmp a b
  | .v1_16_is_latest, a, b => modernCmp a b

/-- datum_t::operator== (datum.cc line 1511): equality is modern_cmp == 0,
with no reql_version parameter at all. -/
def datumEq (a b : Datum) : Except Err Bool := do
  let c ← modernCmp a b
  pure (c = 0)

/-- One lowercase hexadecimal digit character, as produced by printf %x. -/
def hexChar (d : Nat) : Nat := if d < 10 then 48 + d else 87 + d

/-- Fixed-width big-endian hexadecimal rendering of a natural, the effect
of strprintf with a zero-padded %16x width on a 64-bit value (datum.cc
line 595). -/
def hexDigitsBE : Nat → Nat → List Nat
  | 0, _ => []
  | k + 1, n => hexChar (n / 16 ^ k) :: hexDigitsBE k (n % 16 ^ k)

/-- Decimal digit rendering used by the numeric debug suffix; structurally
recursive on a fuel bound so that it evaluates inside the kernel (20
digits suffice for any 64-bit value; the fuel 32 is never exhausted). -/
def decDigitsCore : Nat → Nat → List Nat
  | 0, _ => []
  | fuel + 1, n =>
    if n < 10 then [48 + n]
    else decDigitsCore fuel (n / 10) ++ [48 + n % 10]

/-- Modelled from the spec: the human-readable "#" ++ decimal suffix that
num_to_str_key appends after the 16 hex digits (datum.cc line 596, via the
PR_RECONSTRUCTABLE_DOUBLE format macro from a header not under src/).  The
spec states only that a "#<decimal>" debug suffix is appended and preserved
verbatim; the key-order results rely solely on the suffix being a NUL-free
deterministic function of the bits (equal hex digits imply equal bits imply
equal suffix), so the decimal digits of the bit pattern stand in for the
decimal rendering of the double. -/
def numSuffix (bits : Nat) : List Nat := 35 :: decDigitsCore 32 bits

/-- The sign-ordering transform of num_to_str_key (datum.cc lines 574-593):
negative doubles (sign bit set) have all 64 bits flipped, non-negative ones
only the sign bit, making unsigned order agree with numeric order. -/
def mangleBits (u : Nat) : Nat :=
  if 2 ^ 63 ≤ u then 2 ^ 64 - 1 - u else u + 2 ^ 63

/-- datum_t::num_to_str_key (datum.cc lines 571-597): append N, the 16 hex
digits of the mangled bits, then the decimal debug suffix.  No truncation
happens on this path. -/
def numKeyAppend (acc : List Nat) (bits : Nat) : List Nat :=
  acc ++ 78 :: hexDigitsBE 16 (mangleBits bits) ++ numSuffix bits

/-- datum_t::str_to_str_key (datum.cc lines 621-626): append S, then the
string bytes truncated so the accumulator does not exceed MAX_KEY_SIZE.
The conditional mirrors the size_t subtraction MAX_KEY_SIZE - size, which
cannot underflow on any path that later passes the primary-key length
check. -/
def strKeyAppend (acc : List Nat) (s : List Nat) : List Nat :=
  let a := acc ++ [83]
  a ++ s.take (if a.length ≤ MAX_KEY_SIZE then MAX_KEY_SIZE - a.length else s.length)

/-- The literal prefix "PBINARY:" of binary keys (datum.cc line 602). -/
def binPre : List Nat := [80, 66, 73, 78, 65, 82, 89, 58]

/-- NUL-escaping of binary key bytes (datum.cc lines 608-618):
0x00 becomes 0x01 0x01 and 0x01 becomes 0x01 0x02, so that the NUL array
separator stays unambiguous. -/
def escByte (c : Nat) : List Nat :=
  if c = 0 then [1, 1] else if c = 1 then [1, 2] else [c]

/-- datum_t::binary_to_str_key (datum.cc lines 599-619): append "PBINARY:",
then the escaped bytes; the pre-escape byte count is capped by the room
left under MAX_KEY_SIZE. -/
def binKeyAppend (acc : List Nat) (s : List Nat) : List Nat :=
  let a := acc ++ binPre
  a ++ (s.take (if a.length ≤ MAX_KEY_SIZE then MAX_KEY_SIZE - a.length
                else s.length)).flatMap escByte

/-- datum_t::bool_to_str_key (datum.cc lines 628-636): B then t or f. -/
def boolKeyAppend (acc : List Nat) (b : Bool) : List Nat :=
  acc ++ [66, if b then 116 else 102]

/-- Modelled from the spec: pseudo::time_to_str_key (pseudo_time.cc, not
under src/).  The spec describes the TIME key encoding only as "an
orderable fixed-width encoding", which does not determine its bytes, so
the model marks the branch with the fatal marker instead of inventing an
encoding; no theorem below exercises TIME keys and every key-order theorem
restricts its domain to the variants whose encoders are in the source. -/
def timeToStrKeyModel (_acc : List Nat) (_d : Datum) : Except Err (List Nat) :=
  .error .abort

/-- datum_t::pt_to_str_key (datum.cc lines 556-569): TIME delegates to the
time key encoder; GEOMETRY and every other pseudotype raise GENERIC. -/
def ptKeyAppend (acc : List Nat) (d : Datum) : Except Err (List Nat) := do
  let r ← getReqlType d
  if r = timeName then timeToStrKeyModel acc d
  else .error (.exc .GENERIC)

mutual
/-- The per-variant key-encoding dispatch shared by print_primary,
print_secondary, truncated_secondary and array_to_str_key (datum.cc lines
866-889, 647-673): NUM, STR, BINARY, BOOL and ARRAY have dedicated
encoders, pseudotype OBJECTs go through pt_to_str_key, and NULL or plain
OBJECT raise a GENERIC type error. -/
def keyAppend (acc : List Nat) (d : Datum) : Except Err (List Nat) :=
  match d with
  | .num bits => .ok (numKeyAppend acc bits)
  | .str s => .ok (strKeyAppend acc s)
  | .bin s => .ok (binKeyAppend acc s)
  | .bool b => .ok (boolKeyAppend acc b)
  | .arr l => arrLoop (acc ++ [65]) l
  | .obj ps =>
    if isPtype (.obj ps) then ptKeyAppend acc (.obj ps)
    else .error (.exc .GENERIC)
  | .null => .error (.exc .GENERIC)
  termination_by sizeOf d

/-- The element loop of array_to_str_key (datum.cc lines 641-674): while
the accumulator is below MAX_KEY_SIZE, encode the next element and append
the NUL separator (also after the last element). -/
def arrLoop (acc : List Nat) (l : List Datum) : Except Err (List Nat) :=
  match l with
  | [] => .ok acc
  | d :: ds =>
    if acc.length < MAX_KEY_SIZE then do
      let acc2 ← keyAppend acc d
      arrLoop (acc2 ++ [0]) ds
    else .ok acc
  termination_by sizeOf l
end

/-- datum_t::print_primary (datum.cc lines 866-897): encode by variant,
then fail with GENERIC if the result exceeds MAX_PRIMARY_KEY_SIZE. -/
def printPrimary (d : Datum) : Except Err (List Nat) := do
  let s ← keyAppend [] d
  if MAX_PRIMARY_KEY_SIZE < s.length then .error (.exc .GENERIC)
  else pure s

mutual
/-- The truncation-free form of the key encoding: tag byte, payload, and
for arrays the concatenation of NUL-terminated element encodings.  The
bridging lemma below proves keyAppend equal to this form whenever the
accumulated key stays below MAX_KEY_SIZE (in particular whenever
print_primary succeeds); NULL and OBJECT carry no encoding. -/
def pureEnc : Datum → List Nat
  | .num bits => 78 :: hexDigitsBE 16 (mangleBits bits) ++ numSuffix bits
  | .str s => 83 :: s
  | .bin s => binPre ++ s.flatMap escByte
  | .bool b => [66, if b then 116 else 102]
  | .arr l => 65 :: pureEncList l
  | .null => []
  | .obj _ => []
  termination_by d => sizeOf d

/-- Concatenation of NUL-terminated element encodings (see pureEnc). -/
def pureEncList : List Datum → List Nat
  | [] => []
  | d :: ds => pureEnc d ++ 0 :: pureEncList ds
  termination_by l => sizeOf l
end

/-- datum_t::trunc_size (datum.cc lines 1580-1585): the room left for the
truncated secondary part once the primary key, the 8 tag bytes and the two
trailing offsets are accounted for. -/
def truncSize (primaryKeySize : Nat) : Nat :=
  MAX_KEY_SIZE - primaryKeySize - tagSize - 2

/-- datum_t::encode_tag_num (datum.cc lines 914-921): the 8 raw bytes of
the 64-bit tag in little-endian order (the code static_asserts a
little-endian host). -/
def leBytes : Nat → Nat → List Nat
  | 0, _ => []
  | k + 1, t => t % 256 :: leBytes k (t / 256)

/-- See leBytes: encode_tag_num writes exactly tag_size = 8 bytes. -/
def encodeTagNum (t : Nat) : List Nat := leBytes 8 t

/-- Little-endian read of a 64-bit integer from raw bytes, the effect of
the reinterpret_cast in parse_secondary (datum.cc line 1003). -/
def leDecode : List Nat → Nat
  | [] => 0
  | b :: bs => b + 256 * leDecode bs

/-- datum_t::mangle_secondary (datum.cc lines 899-912): guarantees (fatal
aborts, not exceptions) that the truncated secondary length and its sum
with the primary length each fit in one byte, then appends primary, tag
and the two offset bytes, and guarantees the result fits MAX_KEY_SIZE. -/
def mangleSecondary (secondary primary tag : List Nat) :
    Except Err (List Nat) :=
  if secondary.length < 255 then
    if secondary.length + primary.length < 255 then
      let pkOff := secondary.length
      let tagOff := primary.length + pkOff
      let res := secondary ++ primary ++ tag ++ [pkOff, tagOff]
      if res.length ≤ MAX_KEY_SIZE then .ok res else .error .abort
    else .error .abort
  else .error .abort

/-- datum_t::compose_secondary (datum.cc lines 923-945): reject (catchable
GENERIC exception) primary keys longer than MAX_PRIMARY_KEY_SIZE, encode
the optional tag, cut the secondary part to trunc_size of the primary
length, and mangle. -/
def composeSecondary (secondaryKey primaryKey : List Nat)
    (tagNum : Option Nat) : Except Err (List Nat) :=
  if MAX_PRIMARY_KEY_SIZE < primaryKey.length then .error (.exc .GENERIC)
  else
    let tagString := match tagNum with
      | some t => encodeTagNum t
      | none => []
    let truncated := secondaryKey.take (truncSize primaryKey.length)
    mangleSecondary truncated primaryKey tagString

/-- datum_t::print_secondary (datum.cc lines 947-986): encode the value by
variant, append the NUL terminator under v1_14 and v1_16_is_latest (v1_13
appends nothing), then compose with the primary key and optional tag. -/
def printSecondary (v : ReqlVersion) (d : Datum) (primaryKey : List Nat)
    (tagNum : Option Nat) : Except Err (List Nat) := do
  let s ← keyAppend [] d
  let s2 := match v with
    | .v1_13 => s
    | .v1_14 => s ++ [0]
    | .v1_16_is_latest => s ++ [0]
  composeSecondary s2 primaryKey tagNum

/-- parse_secondary (datum.cc lines 988-1005): read the two trailing
offset bytes (chars converted to uint8_t, hence the mod 256), require
pk_off < tag_off (a guarantee, so a fatal abort on violation), split into
secondary and primary, and decode the 8-byte little-endian tag when the
tag slice is nonempty.  Keys shorter than two bytes index outside the
string in C++; the model maps them to the fatal marker.  The size
subtractions never underflow on keys produced by compose_secondary. -/
def parseSecondary (key : List Nat) :
    Except Err (List Nat × List Nat × Option Nat) :=
  if 2 ≤ key.length then
    let startOfTag := key.getD (key.length - 1) 0 % 256
    let startOfPrimary := key.getD (key.length - 2) 0 % 256
    if startOfPrimary < startOfTag then
      let secondary := key.take startOfPrimary
      let primary := (key.drop startOfPrimary).take (startOfTag - startOfPrimary)
      let tagStr := (key.drop startOfTag).take (key.length - (startOfTag + 2))
      let tagNum := if tagStr.length ≠ 0 then some (leDecode tagStr) else none
      .ok (secondary, primary, tagNum)
    else .error .abort
  else .error .abort

/-- Finiteness of an IEEE-754 binary64 bit pattern: 64 bits with a biased
exponent other than all-ones (the datum constructor rejects non-finite
numbers, datum.cc lines 268-271). -/
def finiteBits (b : Nat) : Bool :=
  b < 2 ^ 64 && b % 2 ^ 63 < 0x7FF0000000000000

/-- The bit pattern of -0.0, the one finite value whose encoding differs
from an equal-comparing value. -/
def negZeroBits : Nat := 2 ^ 63

mutual
/-- Well-formedness of a datum usable as a primary key: the variants whose
encoders live in the source (NUM, STR, BINARY, BOOL, ARRAY of such), with
finite numbers (constructor invariant), NUL-free byte strings
(check_str_validity invariant) and byte-valued string contents. -/
def keyWf : Datum → Bool
  | .num b => finiteBits b
  | .str s => s.all (fun c => decide (c ≠ 0) && decide (c < 256))
  | .bin s => s.all (fun c => decide (c < 256))
  | .bool _ => true
  | .arr l => keyWfList l
  | .null => false
  | .obj _ => false
  termination_by d => sizeOf d

/-- keyWf for every element of an array. -/
def keyWfList : List Datum → Bool
  | [] => true
  | d :: ds => keyWf d && keyWfList ds
  termination_by l => sizeOf l
end

mutual
/-- No NUM subterm holds the bit pattern of -0.0.  Negative zero is the
single finite value that modern_cmp considers equal to a value (+0.0)
with different key bytes; the key-order agreement holds exactly away from
it. -/
def noNegZero : Datum → Bool
  | .num b => decide (b ≠ negZeroBits)
  | .arr l => noNegZeroList l
  | _ => true
  termination_by d => sizeOf d

/-- noNegZero for every element of an array. -/
def noNegZeroList : List Datum → Bool
  | [] => true
  | d :: ds => noNegZero d && noNegZeroList ds
  termination_by l => sizeOf l
end

/-- std::map::find on the sorted key/value list (bytewise key equality),
used by datum_object_builder_t::try_get (datum.cc lines 1805-1808). -/
def mapFind : List (List Nat × Datum) → List Nat → Option Datum
  | [], _ => none
  | (k1, v1) :: r, k =>
    if memcmpBytes k k1 = 0 then some v1 else mapFind r k

/-- Ordered-map insertion with replacement, the effect of map[key] = val
on the sorted pair list. -/
def mapOverwrite : List (List Nat × Datum) → List Nat → Datum →
    List (List Nat × Datum)
  | [], k, v => [(k, v)]
  | (k1, v1) :: r, k, v =>
    if memcmpBytes k k1 < 0 then (k, v) :: (k1, v1) :: r
    else if memcmpBytes k k1 = 0 then (k, v) :: r
    else (k1, v1) :: mapOverwrite r k v

/-- Ordered-map insertion without replacement, the effect of
std::map::insert: an existing key keeps its value. -/
def mapInsertKeep : List (List Nat × Datum) → List Nat → Datum →
    List (List Nat × Datum)
  | [], k, v => [(k, v)]
  | (k1, v1) :: r, k, v =>
    if memcmpBytes k k1 < 0 then (k, v) :: (k1, v1) :: r
    else if memcmpBytes k k1 = 0 then (k1, v1) :: r
    else (k1, v1) :: mapInsertKeep r k v

/-- std::map::erase by key on the sorted pair list
(datum_object_builder_t::delete_field, datum.cc lines 1792-1794). -/
def mapErase : List (List Nat × Datum) → List Nat → List (List Nat × Datum)
  | [], _ => []
  | (k1, v1) :: r, k =>
    if memcmpBytes k k1 = 0 then r else (k1, v1) :: mapErase r k

/-- datum_object_builder_t::overwrite (datum.cc lines 1717-1722):
check_str_validity on the key, then unconditional replacement. -/
def obOverwrite (m : List (List Nat × Datum)) (k : List Nat) (v : Datum) :
    Except Err (List (List Nat × Datum)) := do
  checkStrValidity k
  pure (mapOverwrite m k v)

/-- datum_object_builder_t::add (datum.cc lines 1704-1711):
check_str_validity, then std::map::insert; answers whether the key was a
duplicate. -/
def obAdd (m : List (List Nat × Datum)) (k : List Nat) (v : Datum) :
    Except Err (Bool × List (List Nat × Datum)) := do
  checkStrValidity k
  match mapFind m k with
  | some _ => pure (true, m)
  | none => pure (false, mapInsertKeep m k v)

/-- The datum_object_builder_t copy constructor (datum.cc lines
1697-1702): std::map::insert over the object pairs in order.  On the
sorted duplicate-free pairs of a datum this reproduces the pairs. -/
def builderOfPairs (ps : List (List Nat × Datum)) :
    List (List Nat × Datum) :=
  ps.foldl (fun m kv => mapInsertKeep m kv.1 kv.2) []

/-- One base64 alphabet digit (A-Z, a-z, 0-9, +, /). -/
def base64Digit (c : Nat) : Option Nat :=
  if 65 ≤ c ∧ c ≤ 90 then some (c - 65)
  else if 97 ≤ c ∧ c ≤ 122 then some (c - 97 + 26)
  else if 48 ≤ c ∧ c ≤ 57 then some (c - 48 + 52)
  else if c = 43 then some 62
  else if c = 47 then some 63
  else none

/-- Modelled from the spec: pseudo::decode_base64_ptype (pseudo_binary.cc,
not under src/).  The spec says the BINARY pseudotype's data field is
"decoded from base64", so this is standard RFC 4648 base64 with = padding;
groups of four characters yield three bytes, a final =-padded group yields
one or two. -/
def base64DecodeCore : List Nat → Option (List Nat)
  | [] => some []
  | c1 :: c2 :: c3 :: c4 :: rest => do
    let d1 ← base64Digit c1
    let d2 ← base64Digit c2
    if c3 = 61 then
      if c4 = 61 ∧ rest = [] then some [d1 * 4 + d2 / 16] else none
    else do
      let d3 ← base64Digit c3
      if c4 = 61 then
        if rest = [] then some [d1 * 4 + d2 / 16, d2 % 16 * 16 + d3 / 4]
        else none
      else do
        let d4 ← base64Digit c4
        let bs ← base64DecodeCore rest
        some ((d1 * 4 + d2 / 16) :: (d2 % 16 * 16 + d3 / 4) :: (d3 % 4 * 64 + d4) :: bs)
  | _ => none

/-- Modelled from the spec: pseudo::sanitize_time (pseudo_time.cc, not
under src/) validates the TIME carrier, whose required numeric field the
spec names epoch_time; validation failures surface as GENERIC.  No theorem
below exercises this branch. -/
def sanitizeTimeModel (pairs : List (List Nat × Datum)) : Except Err Datum :=
  match bsearchF pairs epochTimeKey 0 pairs.length with
  | some (.num _) => .ok (.obj pairs)
  | _ => .error (.exc .GENERIC)

/-- Modelled from the spec: pseudo::rcheck_literal_valid (pseudo_literal.cc,
not under src/): a $literal carrier may hold at most the single field
value besides $reql_type$ (GENERIC otherwise). -/
def rcheckLiteralValid (pairs : List (List Nat × Datum)) : Except Err Datum :=
  if pairs.all (fun kv => kv.1 == reqlTypeKey || kv.1 == valueKey)
  then .ok (.obj pairs)
  else .error (.exc .GENERIC)

/-- datum_t::maybe_sanitize_ptype on a freshly built OBJECT (datum.cc lines
698-732): TIME is sanitized, LITERAL is legal only when the allowlist
contains it (GENERIC "Stray literal" otherwise) and must be structurally
valid, GEOMETRY receives the basic syntactic check (modelled from the spec
as a no-op beyond the $reql_type$ STR check), BINARY is replaced by the
BINARY variant holding the base64-decoded data field, and any other
$reql_type$ raises GENERIC, as does a non-STR $reql_type$ field. -/
def sanitizePtype (pairs : List (List Nat × Datum))
    (allowed : List (List Nat)) : Except Err Datum :=
  match bsearchF pairs reqlTypeKey 0 pairs.length with
  | none => .error .abort
  | some t =>
    match t with
    | .str r =>
      if r = timeName then sanitizeTimeModel pairs
      else if r = literalName then
        if allowed.contains literalName then rcheckLiteralValid pairs
        else .error (.exc .GENERIC)
      else if r = geometryName then .ok (.obj pairs)
      else if r = binaryName then
        match bsearchF pairs dataKey 0 pairs.length with
        | some (.str s) =>
          match base64DecodeCore s with
          | some bytes => .ok (.bin bytes)
          | none => .error (.exc .GENERIC)
        | _ => .error (.exc .GENERIC)
      else .error (.exc .GENERIC)
    | _ => .error (.exc .GENERIC)

/-- datum_object_builder_t::to_datum (datum.cc lines 1810-1817) and the
underlying object constructors (datum.cc lines 288-298): the sorted map
becomes an OBJECT datum and maybe_sanitize_ptype runs with the given
allowlist; the no-argument to_datum uses the empty default allowlist
_allowed_pts (datum.cc line 32). -/
def objBuilderToDatum (m : List (List Nat × Datum))
    (allowed : List (List Nat)) : Except Err Datum :=
  if isPtype (.obj m) then sanitizePtype m allowed else .ok (.obj m)

/-- datum_t::is_ptype(reql_type) for the literal pseudotype (datum.cc lines
499-501): is_ptype() and get_reql_type() == "LITERAL" (the reql-type read
can raise GENERIC on a non-STR field). -/
def isLiteralPt (d : Datum) : Except Err Bool :=
  if isPtype d then do
    let r ← getReqlType d
    pure (r = literalName)
  else pure false

/-- Whether the variant is OBJECT (get_type() == R_OBJECT). -/
def isObjD : Datum → Bool
  | .obj _ => true
  | _ => false

mutual
/-- datum_t::drop_literals (datum.cc lines 743-840).  A $literal node is
replaced by its unwrapped value field (absent field: an absent result); a
nested literal inside the value is a sanity violation (fatal).  Objects
and arrays whose entries encountered literals are rebuilt without the
valueless entries — the object through a builder and its sanitizing
to_datum, the array plainly — while untouched subtrees are returned as
is (the copy-on-write scheme of the source, modelled extensionally).
The result flag reports whether a literal was encountered. -/
def dropLiterals (d : Datum) : Except Err (Option Datum × Bool) := do
  let lit ← isLiteralPt d
  if lit then
    match optAttach (getFieldD d valueKey) with
    | some sv => do
      let r ← dropLiterals sv.val
      if r.2 then .error .abort
      else pure (r.1, true)
    | none => pure (none, true)
  else
    match d with
    | .obj pairs => do
      let r ← dropLiteralsPairs pairs
      if r.2 then do
        let d2 ← objBuilderToDatum (builderOfPairs r.1) []
        pure (some d2, true)
      else pure (some (Datum.obj pairs), false)
    | .arr l => do
      let r ← dropLiteralsList l
      if r.2 then pure (some (.arr r.1), true)
      else pure (some (Datum.arr l), false)
    | other => pure (some other, false)
  termination_by sizeOf d
  decreasing_by
    all_goals first
      | exact getFieldSize d valueKey sv.val sv.2
      | simp

/-- Field loop of drop_literals on objects (datum.cc lines 769-800). -/
def dropLiteralsPairs (ps : List (List Nat × Datum)) :
    Except Err (List (List Nat × Datum) × Bool) :=
  match ps with
  | [] => pure ([], false)
  | (k, v) :: rest => do
    let r ← dropLiterals v
    let r2 ← dropLiteralsPairs rest
    match r.1 with
    | some w => pure ((k, w) :: r2.1, r.2 || r2.2)
    | none => pure (r2.1, r.2 || r2.2)
  termination_by sizeOf ps

/-- Element loop of drop_literals on arrays (datum.cc lines 802-829). -/
def dropLiteralsList (l : List Datum) :
    Except Err (List Datum × Bool) :=
  match l with
  | [] => pure ([], false)
  | v :: rest => do
    let r ← dropLiterals v
    let r2 ← dropLiteralsList rest
    match r.1 with
    | some w => pure (w :: r2.1, r.2 || r2.2)
    | none => pure (r2.1, r.2 || r2.2)
  termination_by sizeOf l
end

/-- The non-recursive branch of the merge loop (datum.cc lines 1327-1345):
the value is the literal's value field when the right side is a $literal
(absent field: absent value), otherwise the right value itself; literals
are dropped from it, a literal encountered under a literal is a sanity
violation; an absent result deletes the field (sanity: only a literal can
produce one), a present one overwrites it. -/
def mergeScalar (m : List (List Nat × Datum)) (k : List Nat) (v : Datum)
    (isLit : Bool) : Except Err (List (List Nat × Datum)) := do
  let val1 : Option Datum := if isLit then getFieldD v valueKey else some v
  let val2 ← match val1 with
    | some w => do
      let r ← dropLiterals w
      if r.2 ∧ isLit then .error .abort
      else pure r.1
    | none => pure none
  match val2 with
  | some w => obOverwrite m k w
  | none =>
    if isLit then pure (mapErase m k)
    else .error .abort

mutual
/-- datum_t::merge (datum.cc lines 1313-1348): anything but OBJECT-OBJECT
returns the right side; otherwise a builder seeded from the left object
processes the right pairs in order — OBJECT right values recurse when the
key exists on the left and the value is not a $literal, everything else
goes through the scalar branch — and the builder's sanitizing to_datum
(empty allowlist) produces the result. -/
def mergeD (lhs rhs : Datum) : Except Err Datum :=
  match lhs, rhs with
  | .obj lp, .obj rp => do
    let m ← mergePairs (builderOfPairs lp) rp
    objBuilderToDatum m []
  | _, _ => pure rhs
  termination_by sizeOf rhs

/-- The pair loop of datum_t::merge (datum.cc lines 1319-1346). -/
def mergePairs (m : List (List Nat × Datum))
    (rs : List (List Nat × Datum)) : Except Err (List (List Nat × Datum)) :=
  match rs with
  | [] => pure m
  | (k, v) :: rest => do
    let subLhs := mapFind m k
    let isLit ← isLiteralPt v
    let m2 ← match subLhs with
      | some sl =>
        if isObjD v && !isLit then do
          let merged ← mergeD sl v
          obOverwrite m k merged
        else mergeScalar m k v isLit
      | none => mergeScalar m k v isLit
    mergePairs m2 rest
  termination_by sizeOf rs
end

/-- key_range_t::bound_t: an open bound, a closed bound, or no bound. -/
inductive BoundType : Type
  | opened : BoundType
  | closed : BoundType
  | unbounded : BoundType
deriving DecidableEq, Repr

/-- datum_range_t (datum.cc lines 1950-1959): optional left and right
bounds with their bound types. -/
structure DatumRange : Type where
  left_bound : Option Datum
  left_bound_type : BoundType
  right_bound : Option Datum
  right_bound_type : BoundType

/-- The single-value constructor datum_range_t(datum_t) (datum.cc lines
1957-1959): both bounds are the value, both closed. -/
def singletonRange (v : Datum) : DatumRange :=
  ⟨some v, .closed, some v, .closed⟩

/-- datum_range_t::contains (datum.cc lines 1970-1978).  Each side is
"no bound, or the bound lies strictly on the correct side under the passed
version's comparator, or the bound equals the value (operator==, hence
modern_cmp regardless of the version) and the bound is closed"; the C++
short-circuit evaluation order is preserved, so errors surface in the same
places. -/
def rangeContains (rv : ReqlVersion) (r : DatumRange) (val : Datum) :
    Except Err Bool := do
  let leftOk ← match r.left_bound with
    | none => pure true
    | some lb => do
      let c ← cmpVer rv lb val
      if c < 0 then pure true
      else do
        let e ← datumEq lb val
        pure (e && decide (r.left_bound_type = BoundType.closed))
  if !leftOk then pure false
  else
    match r.right_bound with
    | none => pure true
    | some rb => do
      let c ← cmpVer rv rb val
      if c > 0 then pure true
      else do
        let e ← datumEq rb val
        pure (e && decide (r.right_bound_type = BoundType.closed))

/-- Strict ascending bytewise key order of an object's pair vector, the
invariant every object constructor establishes (datum.cc lines 101-107
assert it; std::map iteration produces it). -/
def sortedPairs (ps : List (List Nat × Datum)) : Prop :=
  List.Pairwise (fun a b => memcmpBytes a.1 b.1 < 0) ps

mutual
/-- No subterm is a $literal pseudotype carrier, and no $reql_type$ field
is a non-string (whose mere inspection by is_ptype(LITERAL) raises
GENERIC).  This is the invariant of every datum built with sanitization,
where stray literals are rejected. -/
def litFree (d : Datum) : Bool :=
  match d with
  | .obj ps =>
    (match bsearchF ps reqlTypeKey 0 ps.length with
     | some (.str r) => decide (r ≠ literalName)
     | some _ => false
     | none => true) && litFreePairs ps
  | .arr l => litFreeList l
  | _ => true
  termination_by sizeOf d

/-- litFree for every value of an object. -/
def litFreePairs (ps : List (List Nat × Datum)) : Bool :=
  match ps with
  | [] => true
  | (_, v) :: rest => litFree v && litFreePairs rest
  termination_by sizeOf ps

/-- litFree for every element of an array. -/
def litFreeList (l : List Datum) : Bool :=
  match l with
  | [] => true
  | v :: rest => litFree v && litFreeList rest
  termination_by sizeOf l
end

/-- The one-byte variant tag that opens each primary-key encoding
(N, S, the P of "PBINARY:", B, A). -/
def tagByte : Datum → Nat
  | .num _ => 78
  | .str _ => 83
  | .bin _ => 80
  | .bool _ => 66
  | .arr _ => 65
  | .null => 0
  | .obj _ => 0

/-- The $literal carrier with a value, the object
with pairs $reql_type$ = "LITERAL" and value = v (sorted: 36 < 118). -/
def litWith (v : Datum) : Datum :=
  .obj [(reqlTypeKey, .str literalName), (valueKey, v)]

/-- The $literal carrier without a value field. -/
def litEmpty : Datum :=
  .obj [(reqlTypeKey, .str literalName)]

/-- The key-order agreement invariant: the modern comparator answers with
a sign in {-1, 0, 1} that matches the bytewise order of the
truncation-free key encodings; a NUL sentinel is appended to each encoding
so that the property is preserved under the NUL-separated array-element
composition (a strict comparison never hides behind a proper prefix). -/
abbrev KeyAgrees (a b : Datum) : Prop :=
  ∃ z, modernCmp a b = Except.ok z ∧ (z = -1 ∨ z = 0 ∨ z = 1) ∧
    (z = 0 → pureEnc a = pureEnc b) ∧
    (z = -1 → LtB (pureEnc a ++ [0]) (pureEnc b ++ [0])) ∧
    (z = 1 → LtB (pureEnc b ++ [0]) (pureEnc a ++ [0]))

/-- KeyAgrees at the array-element level. -/
abbrev KeyAgreesList (x y : List Datum) : Prop :=
  ∃ z, modernCmpList x y = Except.ok z ∧ (z = -1 ∨ z = 0 ∨ z = 1) ∧
    (z = 0 → pureEncList x = pureEncList y) ∧
    (z = -1 → LtB (pureEncList x ++ [0]) (pureEncList y ++ [0])) ∧
    (z = 1 → LtB (pureEncList y ++ [0]) (pureEncList x ++ [0]))

theorem exBindOk {α β : Type} (a : α) (f : α → Except Err β) :
    (Except.ok a >>= f) = f a := rfl

theorem exBindErr {α β : Type} (e : Err) (f : α → Except Err β) :
    ((Except.error e : Except Err α) >>= f) = Except.error e := rfl

theorem exPure {α : Type} (a : α) : (pure a : Except Err α) = Except.ok a := rfl

theorem iteTT {α : Type} (a b : α) : (if (true = true) then a else b) = a := rfl

theorem iteFT {α : Type} (a b : α) : (if (false = true) then a else b) = b := rfl

theorem exMapOk {α β : Type} (f : α → β) (a : α) :
    (f <$> (Except.ok a : Except Err α)) = Except.ok (f a) := rfl

theorem exMapErr {α β : Type} (f : α → β) (e : Err) :
    (f <$> (Except.error e : Except Err α) : Except Err β) = Except.error e := rfl

/-- Claim C6, counterexample: as_bool applied to the NULL datum returns
false instead of failing; the claim predicts a GENERIC type error for
every datum whose variant is not BOOL. -/
theorem c6_as_bool_null_counterexample : asBool Datum.null = Except.ok false := rfl

/-- Claim C6, amended: as_bool never fails on any datum; it returns the
stored boolean for BOOL, false for NULL, and true for every other
variant (datum.cc lines 1085-1091 contain no type check). -/
theorem c6_as_bool_never_fails :
    ∀ d : Datum, ∃ b : Bool, asBool d = Except.ok b ∧
      (b = false ↔ (d = Datum.null ∨ d = Datum.bool false)) := by
  intro d
  cases d with
  | null => exact ⟨false, rfl, by simp⟩
  | bool b => exact ⟨b, rfl, by cases b <;> simp⟩
  | num x => exact ⟨true, rfl, by simp⟩
  | str s => exact ⟨true, rfl, by simp⟩
  | bin s => exact ⟨true, rfl, by simp⟩
  | arr l => exact ⟨true, rfl, by simp⟩
  | obj ps => exact ⟨true, rfl, by simp⟩

/-- Claim C7, counterexample: the size-checked array constructor does
fail on an oversized vector, but with kind GENERIC (the kind passed at
datum.cc line 282), not TOO_LARGE as the claim states. -/
theorem c7_kind_counterexample :
    mkArrayD [Datum.null] 0 = Except.error (Err.exc ExcKind.GENERIC) ∧
      ExcKind.GENERIC ≠ ExcKind.TOO_LARGE := ⟨rfl, by decide⟩

/-- Claim C7, amended: whenever the element count exceeds
array_size_limit, the checked constructor fails, and the kind raised is
GENERIC. -/
theorem c7_array_ctor_generic :
    ∀ (elems : List Datum) (limit : Nat), limit < elems.length →
      mkArrayD elems limit = Except.error (Err.exc ExcKind.GENERIC) := by
  intro elems limit h
  simp [mkArrayD, rcheckArraySize, h]

/-- Claim C7, witness for the amended theorem at a concrete input. -/
theorem c7_array_ctor_generic_witness :
    mkArrayD [Datum.null] 0 = Except.error (Err.exc ExcKind.GENERIC) :=
  c7_array_ctor_generic [Datum.null] 0 (by decide)

/-- Claim C3, counterexample: under v1_14 the string validation accepts
the byte 0xFF, which is not well-formed UTF-8; the claim states that
v1_14 and every later version reject non-UTF-8 strings. -/
theorem c3_v1_14_no_validation_counterexample :
    failIfInvalid ReqlVersion.v1_14 [255] = Except.ok () ∧ utf8Valid [255] = false :=
  ⟨rfl, rfl⟩

/-- Claim C3, amended: fail_if_invalid checks nothing under v1_13 and
v1_14 (datum.cc lines 384-386 fall through) and validates UTF-8 with a
GENERIC failure only under v1_16_is_latest; the plain string constructor
itself never validates UTF-8 and only rejects NUL bytes. -/
theorem c3_utf8_gate :
    ∀ s : List Nat,
      failIfInvalid ReqlVersion.v1_13 s = Except.ok () ∧
      failIfInvalid ReqlVersion.v1_14 s = Except.ok () ∧
      (failIfInvalid ReqlVersion.v1_16_is_latest s = Except.ok () ↔ utf8Valid s = true) ∧
      (failIfInvalid ReqlVersion.v1_16_is_latest s =
          Except.error (Err.exc ExcKind.GENERIC) ↔ utf8Valid s = false) ∧
      (mkStr s = Except.ok (Datum.str s) ↔ 0 ∉ s) ∧
      (mkStr s = Except.error (Err.exc ExcKind.GENERIC) ↔ 0 ∈ s) := by
  intro s
  refine ⟨rfl, rfl, ?_, ?_, ?_, ?_⟩
  · cases h : utf8Valid s <;> simp [failIfInvalid, h]
  · cases h : utf8Valid s <;> simp [failIfInvalid, h]
  · by_cases h : (0 : Nat) ∈ s <;> simp [mkStr, checkStrValidity, h, exMapOk, exMapErr]
  · by_cases h : (0 : Nat) ∈ s <;> simp [mkStr, checkStrValidity, h, exMapOk, exMapErr]

/-- Claim C3, witness instantiating the amended theorem at concrete
strings. -/
theorem c3_utf8_gate_witness :
    mkStr [0] = Except.error (Err.exc ExcKind.GENERIC) :=
  ((c3_utf8_gate [0]).2.2.2.2.2).mpr (by decide)

/-- Claim C5, counterexample: under v1_14 the array builder's insert does
fail when the result exceeds array_size_limit (datum.cc lines 1856-1859),
with the size-check kind GENERIC — the claim states insert never fails
due to the limit under any version. -/
theorem c5_insert_checks_counterexample :
    abInsert 1 ReqlVersion.v1_14 [Datum.null] 0 Datum.null =
      Except.error (Err.exc ExcKind.GENERIC) := rfl

/-- Claim C5, amended: only under v1_13 do insert and splice skip the
size-limit check (their results depend only on the bounds check, never on
the limit); change never consults the limit at any version, and to_datum
performs no check at all, so a built array may exceed the limit. -/
theorem c5_v1_13_unchecked :
    ∀ (limit : Nat) (vec : List Datum) (i : Nat) (val : Datum) (vals : List Datum),
      (abInsert limit ReqlVersion.v1_13 vec i val =
        if i ≤ vec.length then Except.ok (listInsertAt vec i val)
        else Except.error (Err.exc ExcKind.NON_EXISTENCE)) ∧
      (abSplice limit ReqlVersion.v1_13 vec i (Datum.arr vals) =
        if i ≤ vec.length then Except.ok (vec.take i ++ vals ++ vec.drop i)
        else Except.error (Err.exc ExcKind.NON_EXISTENCE)) ∧
      (abChange vec i val =
        if i < vec.length then Except.ok (vec.set i val)
        else Except.error (Err.exc ExcKind.NON_EXISTENCE)) ∧
      abToDatum vec = Datum.arr vec := by
  intro limit vec i val vals
  refine ⟨?_, ?_, ?_, rfl⟩
  · by_cases h : i ≤ vec.length <;> simp [abInsert, h, exPure]
  · by_cases h : i ≤ vec.length <;> simp [abSplice, h, exPure]
  · by_cases h : i < vec.length <;> simp [abChange, h, exPure]

theorem leBytes_length : ∀ (k t : Nat), (leBytes k t).length = k := by
  intro k
  induction k with
  | zero => intro t; rfl
  | succ k ih => intro t; simp [leBytes, ih]

theorem leBytes_lt : ∀ (k t : Nat), ∀ b ∈ leBytes k t, b < 256 := by
  intro k
  induction k with
  | zero => intro t b hb; simp [leBytes] at hb
  | succ k ih =>
    intro t b hb
    simp only [leBytes, List.mem_cons] at hb
    rcases hb with h | h
    · omega
    · exact ih _ b h

theorem leDecode_leBytes : ∀ (k t : Nat), leDecode (leBytes k t) = t % 256 ^ k := by
  intro k
  induction k with
  | zero => intro t; simp [leBytes, leDecode, Nat.mod_one]
  | succ k ih =>
    intro t
    simp only [leBytes, leDecode, ih]
    rw [Nat.pow_succ, Nat.mul_comm (256 ^ k) 256, Nat.mod_mul]

theorem getD_append_pair (A : List Nat) (x y d : Nat) :
    (A ++ [x, y]).getD A.length d = x := by
  induction A with
  | nil => rfl
  | cons a A ih => simpa using ih

theorem getD_append_pair_one (A : List Nat) (x y d : Nat) :
    (A ++ [x, y]).getD (A.length + 1) d = y := by
  induction A with
  | nil => rfl
  | cons a A ih => simpa using ih

/-- Claim C8, counterexample: the v1_14 secondary key for STR "abc" with
primary "pk" and tag 7 is 17 bytes ending in offsets 05 07 (the NUL
terminator appended under v1_14 is part of the truncated secondary, so
pk_off = 5), not the claimed 18 bytes ending in 04 06. -/
theorem c8_bytes_counterexample :
    printSecondary ReqlVersion.v1_14 (Datum.str [97, 98, 99]) [112, 107] (some 7) =
      Except.ok [83, 97, 98, 99, 0, 112, 107, 7, 0, 0, 0, 0, 0, 0, 0, 5, 7] ∧
    ([83, 97, 98, 99, 0, 112, 107, 7, 0, 0, 0, 0, 0, 0, 0, 5, 7] : List Nat) ≠
      [83, 97, 98, 99, 0, 112, 107, 7, 0, 0, 0, 0, 0, 0, 0, 0, 4, 6] := by
  constructor
  · simp only [printSecondary, keyAppend, strKeyAppend]
    rfl
  · decide

/-- Claim C8, amended: under v1_14 and v1_16_is_latest the secondary key
for STR "abc" with primary "pk" and tag 7 is exactly the 17 bytes
53 61 62 63 00 70 6b 07 00 00 00 00 00 00 00 05 07: the S tag, "abc",
the NUL terminator, "pk", the 8-byte little-endian tag, and the trailing
offsets pk_off = 5 and tag_off = 7. -/
theorem c8_secondary_bytes :
    printSecondary ReqlVersion.v1_14 (Datum.str [97, 98, 99]) [112, 107] (some 7) =
      Except.ok [83, 97, 98, 99, 0, 112, 107, 7, 0, 0, 0, 0, 0, 0, 0, 5, 7] ∧
    printSecondary ReqlVersion.v1_16_is_latest (Datum.str [97, 98, 99]) [112, 107] (some 7) =
      Except.ok [83, 97, 98, 99, 0, 112, 107, 7, 0, 0, 0, 0, 0, 0, 0, 5, 7] := by
  constructor <;> (simp only [printSecondary, keyAppend, strKeyAppend]; rfl)

/-- Claim C2, counterexample: with an empty primary key (length 0, within
the claimed bound), compose_secondary succeeds but parse_secondary hits
the guarantee pk_off < tag_off — both offsets are 0 — and fatally aborts
instead of yielding the components. -/
theorem c2_empty_primary_counterexample :
    composeSecondary [120] [] none = Except.ok [120, 1, 1] ∧
      parseSecondary [120, 1, 1] = Except.error Err.abort := ⟨rfl, rfl⟩

/-- Claim C2, amended: for every nonempty primary key within
MAX_PRIMARY_KEY_SIZE and every optional 64-bit tag, parsing the composed
secondary key recovers exactly the secondary truncated to
trunc_size of the primary length, the primary, and the tag. -/
theorem c2_parse_compose_roundtrip :
    ∀ (s p : List Nat) (t : Option Nat),
      1 ≤ p.length → p.length ≤ MAX_PRIMARY_KEY_SIZE →
      (∀ n, t = some n → n < 2 ^ 64) →
      ∃ key, composeSecondary s p t = Except.ok key ∧
        parseSecondary key = Except.ok (s.take (truncSize p.length), p, t) := by
  intro s p t h1 h2 ht
  have hpk : p.length ≤ 128 := by
    simpa [MAX_PRIMARY_KEY_SIZE] using h2
  have htr : truncSize p.length = 240 - p.length := by
    simp only [truncSize, MAX_KEY_SIZE, tagSize]
    omega
  obtain ⟨sec, hsec⟩ : ∃ sec, s.take (truncSize p.length) = sec := ⟨_, rfl⟩
  have hsecLen : sec.length ≤ 240 - p.length := by
    rw [← hsec, ← htr]
    simp [List.length_take]
  obtain ⟨tag, htag⟩ : ∃ tag,
      (match t with
       | some n => encodeTagNum n
       | none => []) = tag := ⟨_, rfl⟩
  have htagLen : tag.length = 0 ∨ tag.length = 8 := by
    cases t <;> simp only [encodeTagNum] at htag <;> rw [← htag] <;>
      simp [leBytes_length]
  obtain ⟨A, hA⟩ : ∃ A, sec ++ p ++ tag = A := ⟨_, rfl⟩
  have hAlen : A.length = sec.length + p.length + tag.length := by
    rw [← hA]; simp [List.length_append]; omega
  have hkeyA : sec ++ p ++ tag ++ [sec.length, p.length + sec.length] =
      A ++ [sec.length, p.length + sec.length] := by
    rw [← hA]
  have hcomp : composeSecondary s p t =
      Except.ok (A ++ [sec.length, p.length + sec.length]) := by
    simp only [composeSecondary]
    rw [if_neg (by omega)]
    rw [hsec, htag]
    simp only [mangleSecondary]
    rw [if_pos (by omega), if_pos (by omega), if_pos]
    · rw [hkeyA]
    · rw [hkeyA]
      simp only [List.length_append, List.length_cons, List.length_nil, hAlen, MAX_KEY_SIZE]
      omega
  refine ⟨A ++ [sec.length, p.length + sec.length], hcomp, ?_⟩
  have hkeyLen : (A ++ [sec.length, p.length + sec.length]).length = A.length + 2 := by
    simp [List.length_append]
  have hgd1 : (A ++ [sec.length, p.length + sec.length]).getD
      ((A ++ [sec.length, p.length + sec.length]).length - 1) 0 = p.length + sec.length := by
    rw [hkeyLen]
    have he : A.length + 2 - 1 = A.length + 1 := by omega
    rw [he]
    exact getD_append_pair_one _ _ _ _
  have hgd2 : (A ++ [sec.length, p.length + sec.length]).getD
      ((A ++ [sec.length, p.length + sec.length]).length - 2) 0 = sec.length := by
    rw [hkeyLen]
    have he : A.length + 2 - 2 = A.length := by omega
    rw [he]
    exact getD_append_pair _ _ _ _
  simp only [parseSecondary]
  rw [if_pos (by rw [hkeyLen]; omega)]
  rw [hgd1, hgd2]
  rw [Nat.mod_eq_of_lt (by omega), Nat.mod_eq_of_lt (by omega)]
  rw [if_pos (by omega)]
  have htake : (A ++ [sec.length, p.length + sec.length]).take sec.length = sec := by
    rw [← hA, List.append_assoc, List.append_assoc]
    exact List.take_left' rfl
  have hdrop1 : (A ++ [sec.length, p.length + sec.length]).drop sec.length =
      p ++ (tag ++ [sec.length, p.length + sec.length]) := by
    rw [← hA, List.append_assoc, List.append_assoc]
    exact List.drop_left' rfl
  have hprim : ((A ++ [sec.length, p.length + sec.length]).drop sec.length).take
      (p.length + sec.length - sec.length) = p := by
    rw [hdrop1]
    have he : p.length + sec.length - sec.length = p.length := by omega
    rw [he]
    exact List.take_left' rfl
  have hdrop2 : (A ++ [sec.length, p.length + sec.length]).drop (p.length + sec.length) =
      tag ++ [sec.length, p.length + sec.length] := by
    have hsp : (sec ++ p).length = p.length + sec.length := by
      simp [List.length_append]; omega
    rw [← hA, List.append_assoc, List.append_assoc, ← List.append_assoc sec p]
    exact List.drop_left' hsp
  have htagstr : ((A ++ [sec.length, p.length + sec.length]).drop (p.length + sec.length)).take
      ((A ++ [sec.length, p.length + sec.length]).length - (p.length + sec.length + 2)) = tag := by
    rw [hdrop2, hkeyLen]
    have he : A.length + 2 - (p.length + sec.length + 2) = tag.length := by
      rw [hAlen]; omega
    rw [he]
    exact List.take_left' rfl
  rw [htake, hprim, htagstr, hsec]
  cases t with
  | none =>
    have htag0 : tag = [] := by simpa using htag.symm
    rw [htag0]
    rfl
  | some n =>
    have hn : n < 2 ^ 64 := ht n rfl
    have htag8 : tag = encodeTagNum n := by simpa using htag.symm
    rw [htag8]
    have hne : (encodeTagNum n).length ≠ 0 := by
      simp [encodeTagNum, leBytes_length]
    rw [if_pos hne]
    have hdec : leDecode (encodeTagNum n) = n := by
      have h8 := leDecode_leBytes 8 n
      simp only [encodeTagNum]
      rw [h8]
      have h264 : (256 : Nat) ^ 8 = 2 ^ 64 := by norm_num
      rw [h264]
      exact Nat.mod_eq_of_lt hn
    rw [hdec]

/-- Claim C2, witness instantiating the amended round-trip at a concrete
secondary, primary, and tag. -/
theorem c2_parse_compose_roundtrip_witness :
    ∃ key, composeSecondary [120] [112, 107] (some 7) = Except.ok key ∧
      parseSecondary key =
        Except.ok (List.take (truncSize (List.length [112, 107])) [120], [112, 107], some 7) :=
  c2_parse_compose_roundtrip [120] [112, 107] (some 7) (by decide) (by decide)
    (fun n h => by cases h; decide)

/-- Claim C10: under the one precondition compose_secondary checks
(primary length within MAX_PRIMARY_KEY_SIZE), mangle_secondary's
guarantees always hold — the truncated secondary length and its sum with
the primary length fit in a byte, the result fits MAX_KEY_SIZE — so the
composed key always ends in the valid offsets pk_off and tag_off; and a
violated guarantee is the fatal abort, not a catchable exception. -/
theorem c10_mangle_guarantees :
    ∀ (s p : List Nat) (t : Option Nat), p.length ≤ MAX_PRIMARY_KEY_SIZE →
      (∃ key, composeSecondary s p t = Except.ok key ∧
        key = s.take (truncSize p.length) ++ p ++
          (match t with | some n => encodeTagNum n | none => []) ++
          [(s.take (truncSize p.length)).length,
           p.length + (s.take (truncSize p.length)).length] ∧
        key.length ≤ MAX_KEY_SIZE ∧
        (s.take (truncSize p.length)).length < 255 ∧
        (s.take (truncSize p.length)).length + p.length < 255) ∧
      (∀ (sec tg : List Nat), 255 ≤ sec.length →
        mangleSecondary sec p tg = Except.error Err.abort) := by
  intro s p t h2
  have hpk : p.length ≤ 128 := by
    simpa [MAX_PRIMARY_KEY_SIZE] using h2
  have htr : truncSize p.length = 240 - p.length := by
    simp only [truncSize, MAX_KEY_SIZE, tagSize]
    omega
  have hsecLen : (s.take (truncSize p.length)).length ≤ 240 - p.length := by
    rw [← htr]
    simp [List.length_take]
  have htagLen : (match t with
      | some n => encodeTagNum n
      | none => []).length = 0 ∨
      (match t with
      | some n => encodeTagNum n
      | none => []).length = 8 := by
    cases t <;> simp [encodeTagNum, leBytes_length]
  constructor
  · refine ⟨_, ?_, rfl, ?_, by omega, by omega⟩
    · simp only [composeSecondary]
      rw [if_neg (by omega)]
      simp only [mangleSecondary]
      rw [if_pos (by omega), if_pos (by omega), if_pos]
      simp only [List.length_append, List.length_cons, List.length_nil, MAX_KEY_SIZE]
      omega
    · simp only [List.length_append, List.length_cons, List.length_nil, MAX_KEY_SIZE]
      omega
  · intro sec tg hsec
    simp only [mangleSecondary]
    rw [if_neg (by omega)]

/-- Claim C10, witness instantiating the guarantees at a concrete
secondary, primary, and absent tag. -/
theorem c10_mangle_guarantees_witness :
    ∃ key, composeSecondary [1, 2, 3] [5] none = Except.ok key ∧
      key = List.take (truncSize (List.length [5])) [1, 2, 3] ++ [5] ++
        (match (none : Option Nat) with | some n => encodeTagNum n | none => []) ++
        [(List.take (truncSize (List.length [5])) [1, 2, 3]).length,
         List.length [5] + (List.take (truncSize (List.length [5])) [1, 2, 3]).length] ∧
      key.length ≤ MAX_KEY_SIZE ∧
      (List.take (truncSize (List.length [5])) [1, 2, 3]).length < 255 ∧
      (List.take (truncSize (List.length [5])) [1, 2, 3]).length + List.length [5] < 255 :=
  (c10_mangle_guarantees [1, 2, 3] [5] none (by decide)).1

/-- Claim C9: operator== is modern_cmp == 0 with no version parameter
(datumEq), so a closed singleton range decides membership — equality at
its closed bounds — by latest-version semantics under every reql_version,
including v1_13, whenever the versioned strict comparison itself returns;
the strict comparisons inside contains use the passed version (cmpVer). -/
theorem c9_closed_bound_eq_modern :
    ∀ (rv : ReqlVersion) (a v : Datum) (z : Int),
      cmpVer rv a v = Except.ok z →
      (rangeContains rv (singletonRange a) v = Except.ok true ↔
        modernCmp a v = Except.ok 0) := by
  intro rv a v z h
  cases hM : modernCmp a v with
  | error e =>
    rcases lt_trichotomy z 0 with hz | hz | hz <;>
      simp [rangeContains, singletonRange, datumEq, h, hM, hz, exBindOk, exBindErr] <;>
      rw [if_neg (by omega)] <;> simp [exPure]
  | ok w =>
    rcases lt_trichotomy z 0 with hz | hz | hz <;>
      by_cases hw : w = 0 <;>
        simp [rangeContains, singletonRange, datumEq, h, hM, hz, hw, exBindOk, exBindErr] <;>
        first
          | (intro hcontra; omega)
          | (rw [if_neg (by omega)]; simp [exPure])
          | simp [exPure]

/-- Claim C9, witness: under v1_13, the closed singleton range at false
applied to true — the v1_13 comparator returns -1 and membership is
decided by modern equality. -/
theorem c9_closed_bound_eq_modern_witness :
    rangeContains ReqlVersion.v1_13 (singletonRange (Datum.bool false)) (Datum.bool true) =
        Except.ok true ↔
      modernCmp (Datum.bool false) (Datum.bool true) = Except.ok 0 :=
  c9_closed_bound_eq_modern ReqlVersion.v1_13 (Datum.bool false) (Datum.bool true) (-1)
    (by simp only [cmpVer, v113Cmp]; rfl)

theorem memcmp_eq_zero_iff : ∀ (a b : List Nat), memcmpBytes a b = 0 ↔ a = b := by
  intro a
  induction a with
  | nil => intro b; cases b <;> simp [memcmpBytes]
  | cons x xs ih =>
    intro b
    cases b with
    | nil => simp [memcmpBytes]
    | cons y ys =>
      simp only [memcmpBytes]
      by_cases h1 : x < y
      · simp [h1]
        omega
      · by_cases h2 : y < x
        · simp [h1, h2]
          omega
        · have hxy : x = y := by omega
          simp [h1, h2, hxy, ih]

theorem memcmp_neg : ∀ (a b : List Nat), memcmpBytes b a = -memcmpBytes a b := by
  intro a
  induction a with
  | nil => intro b; cases b <;> simp [memcmpBytes]
  | cons x xs ih =>
    intro b
    cases b with
    | nil => simp [memcmpBytes]
    | cons y ys =>
      simp only [memcmpBytes]
      by_cases h1 : x < y
      · have h2 : ¬y < x := by omega
        simp [h1, h2]
      · by_cases h2 : y < x
        · simp [h1, h2]
        · simp [h1, h2, ih]

theorem memcmp_cases : ∀ (a b : List Nat),
    memcmpBytes a b = -1 ∨ memcmpBytes a b = 0 ∨ memcmpBytes a b = 1 := by
  intro a
  induction a with
  | nil => intro b; cases b <;> simp [memcmpBytes]
  | cons x xs ih =>
    intro b
    cases b with
    | nil => simp [memcmpBytes]
    | cons y ys =>
      simp only [memcmpBytes]
      by_cases h1 : x < y
      · simp [h1]
      · by_cases h2 : y < x
        · simp [h1, h2]
        · simp [h1, h2, ih]

theorem memcmp_trans_lt : ∀ (a b c : List Nat),
    memcmpBytes a b < 0 → memcmpBytes b c < 0 → memcmpBytes a c < 0 := by
  intro a
  induction a with
  | nil =>
    intro b c hab hbc
    cases c with
    | nil =>
      cases b with
      | nil => simp [memcmpBytes] at hab
      | cons y ys => simp [memcmpBytes] at hbc
    | cons z zs => simp [memcmpBytes]
  | cons x xs ih =>
    intro b c hab hbc
    cases b with
    | nil => simp [memcmpBytes] at hab
    | cons y ys =>
      cases c with
      | nil => simp [memcmpBytes] at hbc
      | cons z zs =>
        simp only [memcmpBytes] at hab hbc ⊢
        by_cases hxy : x < y
        · by_cases hyz : y < z
          · simp [show x < z by omega]
          · by_cases hzy : z < y
            · simp [hyz, hzy] at hbc
            · have : y = z := by omega
              simp [show x < z by omega]
        · by_cases hyx : y < x
          · simp [hxy, hyx] at hab
          · have hxy2 : x = y := by omega
            by_cases hyz : y < z
            · simp [show x < z by omega]
            · by_cases hzy : z < y
              · simp [hyz, hzy] at hbc
              · have hyz2 : y = z := by omega
                have h1 : ¬x < z := by omega
                have h2 : ¬z < x := by omega
                simp [hxy, hyx, hyz, hzy, h1, h2] at hab hbc ⊢
                exact ih ys zs hab hbc

theorem sortedPairs_mono (ps : List (List Nat × Datum)) (h : sortedPairs ps)
    (i j : Nat) (hij : i < j) (a b : List Nat × Datum)
    (ha : ps[i]? = some a) (hb : ps[j]? = some b) :
    memcmpBytes a.1 b.1 < 0 := by
  have hi : i < ps.length := by
    by_contra hc
    rw [List.getElem?_eq_none (by omega)] at ha
    cases ha
  have hj : j < ps.length := by
    by_contra hc
    rw [List.getElem?_eq_none (by omega)] at hb
    cases hb
  rw [List.getElem?_eq_getElem hi] at ha
  rw [List.getElem?_eq_getElem hj] at hb
  cases ha
  cases hb
  exact List.pairwise_iff_getElem.mp h i j hi hj hij

theorem half_le : ∀ n : Nat, half n ≤ n := by
  intro n
  induction n using Nat.strong_induction_on with
  | _ n ih =>
    match n with
    | 0 => simp [half]
    | 1 => simp [half]
    | n + 2 =>
      have := ih n (by omega)
      simp only [half]
      omega

theorem half_lt : ∀ n : Nat, 0 < n → half n < n := by
  intro n hn
  match n with
  | 1 => simp [half]
  | n + 2 =>
    have := half_le n
    simp only [half]
    omega

theorem mapFind_none_of_no_match :
    ∀ (ps : List (List Nat × Datum)) (k : List Nat),
      (∀ pr ∈ ps, memcmpBytes k pr.1 ≠ 0) → mapFind ps k = none := by
  intro ps k
  induction ps with
  | nil => intro _; rfl
  | cons a rest ih =>
    intro h
    simp only [mapFind]
    rw [if_neg (h a (by simp))]
    exact ih (fun pr hpr => h pr (by simp [hpr]))

theorem mapFind_at_sorted_index :
    ∀ (ps : List (List Nat × Datum)), sortedPairs ps →
      ∀ (c : Nat) (pr : List Nat × Datum) (k : List Nat),
        ps[c]? = some pr → memcmpBytes k pr.1 = 0 → mapFind ps k = some pr.2 := by
  intro ps
  induction ps with
  | nil =>
    intro _ c pr k hpr
    simp at hpr
  | cons a rest ih =>
    intro hs c pr k hpr h0
    have hk : k = pr.1 := (memcmp_eq_zero_iff k pr.1).mp h0
    cases hs with
    | cons hrel hrest =>
      cases c with
      | zero =>
        simp only [List.getElem?_cons_zero] at hpr
        cases hpr
        simp only [mapFind]
        rw [if_pos h0]
      | succ c =>
        simp only [List.getElem?_cons_succ] at hpr
        have hmem : pr ∈ rest := List.getElem?_mem hpr
        have hlt : memcmpBytes a.1 pr.1 < 0 := hrel pr hmem
        have hne : memcmpBytes k a.1 ≠ 0 := by
          rw [hk]
          rw [memcmp_neg]
          omega
        simp only [mapFind]
        rw [if_neg hne]
        exact ih hrest c pr k hpr h0

theorem bsearchGo_eq_mapFind (ps : List (List Nat × Datum)) (k : List Nat)
    (hs : sortedPairs ps) :
    ∀ (fuel bg ed : Nat), ed ≤ ps.length → ed - bg ≤ fuel →
      (∀ i, i < bg → ∀ pr : List Nat × Datum, ps[i]? = some pr →
        0 < memcmpBytes k pr.1) →
      (∀ i, ed ≤ i → ∀ pr : List Nat × Datum, ps[i]? = some pr →
        memcmpBytes k pr.1 < 0) →
      bsearchGo ps k bg ed fuel = mapFind ps k := by
  intro fuel
  induction fuel with
  | zero =>
    intro bg ed hed hf hlo hhi
    rw [bsearchGo]
    symm
    apply mapFind_none_of_no_match
    intro pr hpr
    obtain ⟨i, hi⟩ := List.getElem?_of_mem hpr
    rcases Nat.lt_or_ge i bg with h1 | h1
    · have := hlo i h1 pr hi
      omega
    · have := hhi i (by omega) pr hi
      omega
  | succ fuel ih =>
    intro bg ed hed hf hlo hhi
    rw [bsearchGo]
    by_cases hbe : bg < ed
    · rw [if_pos hbe]
      have hhalf := half_lt (ed - bg) (by omega)
      have hc : bg + half (ed - bg) < ed := by omega
      have hc2 : bg + half (ed - bg) < ps.length := by omega
      rw [List.getElem?_eq_getElem hc2]
      simp only []
      by_cases h0 : memcmpBytes k (ps[bg + half (ed - bg)]).1 = 0
      · rw [if_pos h0]
        exact (mapFind_at_sorted_index ps hs _ _ k
          (List.getElem?_eq_getElem hc2) h0).symm
      · rw [if_neg h0]
        by_cases hneg : memcmpBytes k (ps[bg + half (ed - bg)]).1 < 0
        · rw [if_pos hneg]
          apply ih bg (bg + half (ed - bg)) (by omega) (by omega) hlo
          intro i hi pr hpr
          rcases Nat.eq_or_lt_of_le hi with h1 | h1
          · rw [← h1, List.getElem?_eq_getElem hc2] at hpr
            cases hpr
            exact hneg
          · have hilen : i < ps.length := by
              by_contra hil
              rw [List.getElem?_eq_none (by omega)] at hpr
              cases hpr
            have hm := sortedPairs_mono ps hs (bg + half (ed - bg)) i h1
              (ps[bg + half (ed - bg)]) pr (List.getElem?_eq_getElem hc2) hpr
            exact memcmp_trans_lt k _ pr.1 hneg hm
        · rw [if_neg hneg]
          have hpos : memcmpBytes k (ps[bg + half (ed - bg)]).1 = 1 := by
            rcases memcmp_cases k (ps[bg + half (ed - bg)]).1 with h | h | h <;> omega
          apply ih (bg + half (ed - bg) + 1) ed hed (by omega) ?_ hhi
          intro i hi pr hpr
          rcases Nat.lt_or_ge i (bg + half (ed - bg)) with h1 | h1
          · have hm := sortedPairs_mono ps hs i (bg + half (ed - bg)) h1
              pr (ps[bg + half (ed - bg)]) hpr (List.getElem?_eq_getElem hc2)
            have hck : memcmpBytes (ps[bg + half (ed - bg)]).1 k < 0 := by
              rw [memcmp_neg]
              omega
            have := memcmp_trans_lt pr.1 _ k hm hck
            rw [memcmp_neg] at this
            omega
          · have hieq : i = bg + half (ed - bg) := by omega
            rw [hieq, List.getElem?_eq_getElem hc2] at hpr
            cases hpr
            omega
    · rw [if_neg hbe]
      symm
      apply mapFind_none_of_no_match
      intro pr hpr
      obtain ⟨i, hi⟩ := List.getElem?_of_mem hpr
      rcases Nat.lt_or_ge i bg with h1 | h1
      · have := hlo i h1 pr hi
        omega
      · have := hhi i (by omega) pr hi
        omega

theorem getField_sorted (ps : List (List Nat × Datum)) (k : List Nat)
    (hs : sortedPairs ps) :
    getFieldD (Datum.obj ps) k = mapFind ps k := by
  simp only [getFieldD, bsearchF]
  apply bsearchGo_eq_mapFind ps k hs ps.length 0 ps.length (by omega) (by omega)
  · intro i hi
    omega
  · intro i hi pr hpr
    rw [List.getElem?_eq_none (by omega)] at hpr
    cases hpr

theorem mapFind_overwrite_self :
    ∀ (m : List (List Nat × Datum)) (k : List Nat) (v : Datum),
      mapFind (mapOverwrite m k v) k = some v := by
  intro m k v
  induction m with
  | nil => simp [mapOverwrite, mapFind, memcmp_eq_zero_iff]
  | cons a rest ih =>
    simp only [mapOverwrite]
    by_cases h1 : memcmpBytes k a.1 < 0
    · rw [if_pos h1]
      simp [mapFind, memcmp_eq_zero_iff]
    · rw [if_neg h1]
      by_cases h2 : memcmpBytes k a.1 = 0
      · rw [if_pos h2]
        simp [mapFind, memcmp_eq_zero_iff]
      · rw [if_neg h2]
        simp only [mapFind]
        rw [if_neg h2]
        exact ih

theorem mapFind_overwrite_other :
    ∀ (m : List (List Nat × Datum)) (k k2 : List Nat) (v : Datum),
      memcmpBytes k2 k ≠ 0 →
      mapFind (mapOverwrite m k v) k2 = mapFind m k2 := by
  intro m k k2 v hne
  induction m with
  | nil =>
    simp only [mapOverwrite, mapFind]
    rw [if_neg hne]
  | cons a rest ih =>
    simp only [mapOverwrite]
    by_cases h1 : memcmpBytes k a.1 < 0
    · rw [if_pos h1]
      simp only [mapFind]
      rw [if_neg hne]
    · rw [if_neg h1]
      by_cases h2 : memcmpBytes k a.1 = 0
      · rw [if_pos h2]
        have hka : k = a.1 := (memcmp_eq_zero_iff k a.1).mp h2
        simp only [mapFind]
        rw [if_neg hne, if_neg (by rw [← hka]; exact hne)]
      · rw [if_neg h2]
        simp only [mapFind]
        by_cases h3 : memcmpBytes k2 a.1 = 0
        · rw [if_pos h3, if_pos h3]
        · rw [if_neg h3, if_neg h3]
          exact ih

theorem mem_overwrite :
    ∀ (m : List (List Nat × Datum)) (k : List Nat) (v : Datum)
      (pr : List Nat × Datum), pr ∈ mapOverwrite m k v → pr ∈ m ∨ pr = (k, v) := by
  intro m k v pr
  induction m with
  | nil =>
    intro h
    simp [mapOverwrite] at h
    exact Or.inr h
  | cons a rest ih =>
    intro h
    simp only [mapOverwrite] at h
    by_cases h1 : memcmpBytes k a.1 < 0
    · rw [if_pos h1] at h
      rcases List.mem_cons.mp h with h2 | h2
      · exact Or.inr h2
      · exact Or.inl h2
    · rw [if_neg h1] at h
      by_cases h2 : memcmpBytes k a.1 = 0
      · rw [if_pos h2] at h
        rcases List.mem_cons.mp h with h3 | h3
        · exact Or.inr h3
        · exact Or.inl (by simp [h3])
      · rw [if_neg h2] at h
        rcases List.mem_cons.mp h with h3 | h3
        · exact Or.inl (by simp [h3])
        · rcases ih h3 with h4 | h4
          · exact Or.inl (by simp [h4])
          · exact Or.inr h4

theorem sorted_overwrite :
    ∀ (m : List (List Nat × Datum)) (k : List Nat) (v : Datum),
      sortedPairs m → sortedPairs (mapOverwrite m k v) := by
  intro m k v hs
  induction m with
  | nil => simp [mapOverwrite, sortedPairs]
  | cons a rest ih =>
    cases hs with
    | cons hrel hrest =>
      simp only [mapOverwrite]
      by_cases h1 : memcmpBytes k a.1 < 0
      · rw [if_pos h1]
        refine List.Pairwise.cons ?_ (List.Pairwise.cons hrel hrest)
        intro b hb
        rcases List.mem_cons.mp hb with h2 | h2
        · rw [h2]
          exact h1
        · exact memcmp_trans_lt k a.1 b.1 h1 (hrel b h2)
      · rw [if_neg h1]
        by_cases h2 : memcmpBytes k a.1 = 0
        · rw [if_pos h2]
          have hka : k = a.1 := (memcmp_eq_zero_iff k a.1).mp h2
          refine List.Pairwise.cons ?_ hrest
          intro b hb
          rw [hka]
          exact hrel b hb
        · rw [if_neg h2]
          refine List.Pairwise.cons ?_ (ih hrest)
          intro b hb
          rcases mem_overwrite rest k v b hb with h3 | h3
          · exact hrel b h3
          · have hk : memcmpBytes a.1 k < 0 := by
              rw [memcmp_neg]
              rcases memcmp_cases k a.1 with h | h | h <;> omega
            rw [h3]
            exact hk

theorem mapFind_erase_other :
    ∀ (m : List (List Nat × Datum)) (k k2 : List Nat),
      memcmpBytes k2 k ≠ 0 →
      mapFind (mapErase m k) k2 = mapFind m k2 := by
  intro m k k2 hne
  induction m with
  | nil => rfl
  | cons a rest ih =>
    simp only [mapErase]
    by_cases h1 : memcmpBytes k a.1 = 0
    · rw [if_pos h1]
      have hka : k = a.1 := (memcmp_eq_zero_iff k a.1).mp h1
      simp only [mapFind]
      rw [if_neg (by rw [← hka]; exact hne)]
    · rw [if_neg h1]
      simp only [mapFind]
      by_cases h3 : memcmpBytes k2 a.1 = 0
      · rw [if_pos h3, if_pos h3]
      · rw [if_neg h3, if_neg h3]
        exact ih

theorem mapFind_erase_self :
    ∀ (m : List (List Nat × Datum)) (k : List Nat),
      sortedPairs m → mapFind (mapErase m k) k = none := by
  intro m k hs
  induction m with
  | nil => rfl
  | cons a rest ih =>
    cases hs with
    | cons hrel hrest =>
      simp only [mapErase]
      by_cases h1 : memcmpBytes k a.1 = 0
      · rw [if_pos h1]
        have hka : k = a.1 := (memcmp_eq_zero_iff k a.1).mp h1
        apply mapFind_none_of_no_match
        intro pr hpr
        have := hrel pr hpr
        rw [hka]
        omega
      · rw [if_neg h1]
        simp only [mapFind]
        rw [if_neg h1]
        exact ih hrest

theorem mapInsertKeep_append :
    ∀ (acc : List (List Nat × Datum)) (k : List Nat) (v : Datum),
      (∀ pr ∈ acc, memcmpBytes pr.1 k < 0) →
      mapInsertKeep acc k v = acc ++ [(k, v)] := by
  intro acc k v
  induction acc with
  | nil => intro _; rfl
  | cons a rest ih =>
    intro h
    have ha : memcmpBytes a.1 k < 0 := h a (by simp)
    simp only [mapInsertKeep]
    rw [if_neg (by rw [memcmp_neg]; omega), if_neg (by rw [memcmp_neg]; omega)]
    rw [ih (fun pr hpr => h pr (by simp [hpr]))]
    simp

theorem builderOfPairs_sorted :
    ∀ (xs acc : List (List Nat × Datum)),
      sortedPairs (acc ++ xs) →
      List.foldl (fun m kv => mapInsertKeep m kv.1 kv.2) acc xs = acc ++ xs := by
  intro xs
  induction xs with
  | nil => intro acc _; simp
  | cons a rest ih =>
    intro acc hs
    simp only [List.foldl_cons]
    have hlt : ∀ pr ∈ acc, memcmpBytes pr.1 a.1 < 0 := by
      intro pr hpr
      have := (List.pairwise_append.mp hs).2.2 pr hpr a (by simp)
      exact this
    rw [mapInsertKeep_append acc a.1 a.2 hlt]
    have hpair : ((a.1, a.2) : List Nat × Datum) = a := rfl
    rw [hpair]
    have hs2 : sortedPairs ((acc ++ [a]) ++ rest) := by
      simpa using hs
    rw [ih (acc ++ [a]) hs2]
    simp

theorem litFree_isLiteralPt (d : Datum) (h : litFree d = true) :
    isLiteralPt d = Except.ok false := by
  cases d with
  | null => rfl
  | bool b => rfl
  | num n => rfl
  | str s => rfl
  | bin s => rfl
  | arr l => rfl
  | obj ps =>
    rw [litFree] at h
    rcases hb : bsearchF ps reqlTypeKey 0 ps.length with _ | v
    · simp [isLiteralPt, isPtype, hb, exPure]
    · rw [hb] at h
      cases v with
      | str r =>
        simp only [Bool.and_eq_true, decide_eq_true_eq] at h
        simp [isLiteralPt, isPtype, getReqlType, hb, exBindOk, exPure, h.1]
      | null => simp at h
      | bool b => simp at h
      | num n => simp at h
      | bin s => simp at h
      | arr l => simp at h
      | obj ps2 => simp at h

mutual

theorem dropLiterals_litFree :
    ∀ (d : Datum), litFree d = true → dropLiterals d = Except.ok (some d, false)
  | Datum.obj ps, h => by
    have hlit : isLiteralPt (Datum.obj ps) = Except.ok false :=
      litFree_isLiteralPt _ h
    have h2 : litFreePairs ps = true := by
      rw [litFree] at h
      simp only [Bool.and_eq_true] at h
      exact h.2
    have hdp : dropLiteralsPairs ps = Except.ok (ps, false) :=
      dropLiteralsPairs_litFree ps h2
    rw [dropLiterals, hlit, exBindOk, iteFT, hdp, exBindOk]
    rfl
  | Datum.arr l, h => by
    have hlit : isLiteralPt (Datum.arr l) = Except.ok false :=
      litFree_isLiteralPt _ h
    have h2 : litFreeList l = true := by
      rw [litFree] at h
      exact h
    have hdl : dropLiteralsList l = Except.ok (l, false) :=
      dropLiteralsList_litFree l h2
    rw [dropLiterals, hlit, exBindOk, iteFT, hdl, exBindOk]
    rfl
  | Datum.null, h => by
    rw [dropLiterals, litFree_isLiteralPt _ h, exBindOk, iteFT]
    all_goals first | rfl | (intro _ hx; simp at hx)
  | Datum.bool b, h => by
    rw [dropLiterals, litFree_isLiteralPt _ h, exBindOk, iteFT]
    all_goals first | rfl | (intro _ hx; simp at hx)
  | Datum.num n, h => by
    rw [dropLiterals, litFree_isLiteralPt _ h, exBindOk, iteFT]
    all_goals first | rfl | (intro _ hx; simp at hx)
  | Datum.str s, h => by
    rw [dropLiterals, litFree_isLiteralPt _ h, exBindOk, iteFT]
    all_goals first | rfl | (intro _ hx; simp at hx)
  | Datum.bin s, h => by
    rw [dropLiterals, litFree_isLiteralPt _ h, exBindOk, iteFT]
    all_goals first | rfl | (intro _ hx; simp at hx)
  termination_by d => sizeOf d

theorem dropLiteralsPairs_litFree :
    ∀ (ps : List (List Nat × Datum)), litFreePairs ps = true →
      dropLiteralsPairs ps = Except.ok (ps, false)
  | [], _ => by
    rw [dropLiteralsPairs]
    rfl
  | (k, v) :: rest, h => by
    rw [litFreePairs] at h
    simp only [Bool.and_eq_true] at h
    have hv : dropLiterals v = Except.ok (some v, false) :=
      dropLiterals_litFree v h.1
    have hr : dropLiteralsPairs rest = Except.ok (rest, false) :=
      dropLiteralsPairs_litFree rest h.2
    rw [dropLiteralsPairs, hv, exBindOk, hr, exBindOk]
    rfl
  termination_by ps => sizeOf ps

theorem dropLiteralsList_litFree :
    ∀ (l : List Datum), litFreeList l = true →
      dropLiteralsList l = Except.ok (l, false)
  | [], _ => by
    rw [dropLiteralsList]
    rfl
  | v :: rest, h => by
    rw [litFreeList] at h
    simp only [Bool.and_eq_true] at h
    have hv : dropLiterals v = Except.ok (some v, false) :=
      dropLiterals_litFree v h.1
    have hr : dropLiteralsList rest = Except.ok (rest, false) :=
      dropLiteralsList_litFree rest h.2
    rw [dropLiteralsList, hv, exBindOk, hr, exBindOk]
    rfl
  termination_by l => sizeOf l

end

theorem mem_erase :
    ∀ (m : List (List Nat × Datum)) (k : List Nat) (pr : List Nat × Datum),
      pr ∈ mapErase m k → pr ∈ m := by
  intro m k pr
  induction m with
  | nil => intro h; simp [mapErase] at h
  | cons a rest ih =>
    intro h
    simp only [mapErase] at h
    by_cases h1 : memcmpBytes k a.1 = 0
    · rw [if_pos h1] at h
      exact List.mem_cons_of_mem a h
    · rw [if_neg h1] at h
      rcases List.mem_cons.mp h with h2 | h2
      · exact h2 ▸ List.mem_cons_self a rest
      · exact List.mem_cons_of_mem a (ih h2)

theorem sorted_erase :
    ∀ (m : List (List Nat × Datum)) (k : List Nat),
      sortedPairs m → sortedPairs (mapErase m k) := by
  intro m k hs
  induction m with
  | nil => simp [mapErase, sortedPairs]
  | cons a rest ih =>
    cases hs with
    | cons hrel hrest =>
      simp only [mapErase]
      by_cases h1 : memcmpBytes k a.1 = 0
      · rw [if_pos h1]
        exact hrest
      · rw [if_neg h1]
        refine List.Pairwise.cons ?_ (ih hrest)
        intro b hb
        exact hrel b (mem_erase rest k b hb)

theorem dropLitWith (w : Datum) (r : Option Datum) (enc : Bool)
    (hw : dropLiterals w = Except.ok (r, enc)) :
    dropLiterals (litWith w) =
      if enc then Except.error Err.abort else Except.ok (r, true) := by
  have hA : isLiteralPt (Datum.obj [(reqlTypeKey, Datum.str literalName),
      (valueKey, w)]) = Except.ok true := rfl
  have hB : optAttach (getFieldD (Datum.obj [(reqlTypeKey, Datum.str literalName),
      (valueKey, w)]) valueKey) = some ⟨w, rfl⟩ := rfl
  simp only [litWith]
  rw [dropLiterals]
  rw [hA, exBindOk, iteTT, hB]
  dsimp only
  rw [hw, exBindOk]
  cases enc
  · rfl
  · rfl

theorem dropLitEmpty : dropLiterals litEmpty = Except.ok (none, true) := by
  have hA : isLiteralPt (Datum.obj [(reqlTypeKey, Datum.str literalName)]) =
      Except.ok true := rfl
  have hB : optAttach (getFieldD (Datum.obj [(reqlTypeKey, Datum.str literalName)])
      valueKey) = none := rfl
  simp only [litEmpty]
  rw [dropLiterals]
  rw [hA, exBindOk, iteTT, hB]
  rfl

theorem mergeScalarLitWith (m : List (List Nat × Datum)) (k : List Nat)
    (v : Datum) (r : Option Datum) (enc : Bool)
    (hv : dropLiterals v = Except.ok (r, enc)) :
    mergeScalar m k (litWith v) true =
      if enc then Except.error Err.abort
      else
        match r with
        | some w => obOverwrite m k w
        | none => pure (mapErase m k) := by
  have hB : getFieldD (litWith v) valueKey = some v := rfl
  simp only [mergeScalar]
  rw [if_pos trivial, hB]
  dsimp only
  rw [hv, exBindOk]
  cases enc
  · cases r
    · rfl
    · rfl
  · rfl

theorem mergeScalarLitEmpty (m : List (List Nat × Datum)) (k : List Nat) :
    mergeScalar m k litEmpty true = Except.ok (mapErase m k) := by
  have hB : getFieldD litEmpty valueKey = none := rfl
  simp only [mergeScalar]
  rw [if_pos trivial, hB]
  rfl

theorem mergePairsLit (m : List (List Nat × Datum)) (k : List Nat) (v : Datum)
    (hlit : isLiteralPt v = Except.ok true) (hobj : isObjD v = true)
    (res : List (List Nat × Datum))
    (hms : mergeScalar m k v true = Except.ok res) :
    mergePairs m [(k, v)] = Except.ok res := by
  rw [mergePairs, hlit, exBindOk]
  cases hsub : mapFind m k with
  | some sl =>
    dsimp only
    rw [hobj]
    rw [if_neg (show ¬((true && !true) = true) from by decide)]
    rw [hms, exBindOk]
    rw [mergePairs]
    rfl
  | none =>
    dsimp only
    rw [hms, exBindOk]
    rw [mergePairs]
    rfl

theorem mergePairsLitErr (m : List (List Nat × Datum)) (k : List Nat)
    (v : Datum) (hlit : isLiteralPt v = Except.ok true)
    (hobj : isObjD v = true) (e : Err)
    (hms : mergeScalar m k v true = Except.error e) :
    mergePairs m [(k, v)] = Except.error e := by
  rw [mergePairs, hlit, exBindOk]
  cases hsub : mapFind m k with
  | some sl =>
    dsimp only
    rw [hobj]
    rw [if_neg (show ¬((true && !true) = true) from by decide)]
    rw [hms, exBindErr]
  | none =>
    dsimp only
    rw [hms, exBindErr]

/-- Claim C4, counterexample: the claim quantifies over every datum v, but
merging the single-pair object whose value is a $literal wrapping another
$literal hits the r_sanity_check in drop_literals (a literal nested inside
a literal's value) and fatally aborts instead of mapping the key to the
inner value. -/
theorem c4_nested_literal_counterexample :
    mergeD (Datum.obj [])
        (Datum.obj [([107], litWith (litWith (Datum.str [120])))]) =
      Except.error Err.abort := by
  have h0 : dropLiterals (Datum.str [120]) =
      Except.ok (some (Datum.str [120]), false) :=
    dropLiterals_litFree _ (by simp [litFree])
  have h1 : dropLiterals (litWith (Datum.str [120])) =
      Except.ok (some (Datum.str [120]), true) := by
    have h := dropLitWith (Datum.str [120]) (some (Datum.str [120])) false h0
    simpa using h
  have hms : mergeScalar [] [107] (litWith (litWith (Datum.str [120]))) true =
      Except.error Err.abort := by
    have h := mergeScalarLitWith [] [107] (litWith (Datum.str [120]))
      (some (Datum.str [120])) true h1
    simpa using h
  have hmp : mergePairs [] [([107], litWith (litWith (Datum.str [120])))] =
      Except.error Err.abort :=
    mergePairsLitErr [] [107] (litWith (litWith (Datum.str [120]))) rfl rfl
      Err.abort hms
  rw [mergeD]
  rw [show builderOfPairs [] = ([] : List (List Nat × Datum)) from rfl]
  rw [hmp, exBindErr]

/-- Claim C4 (amended): the literal law holds for literal-free replacement
values: for an object x with sorted pairs and no $reql_type$ field, a
NUL-free key k other than $reql_type$, and a value v free of nested
$literal carriers, merge(x, {k: $literal(v)}) yields x with k overwritten
to v (so get_field k returns v), and merge(x, {k: $literal()}) yields x
with k erased (so get_field k finds nothing).  The original claim's
unrestricted "every datum v" is refuted by the nested-literal fatal abort
(see the counterexample). -/
theorem c4_literal_law (xs : List (List Nat × Datum)) (k : List Nat)
    (v : Datum)
    (hs : sortedPairs xs)
    (hnp : isPtype (Datum.obj xs) = false)
    (hk : memcmpBytes k reqlTypeKey ≠ 0)
    (hnul : (0 : Nat) ∉ k)
    (hv : litFree v = true) :
    mergeD (Datum.obj xs) (Datum.obj [(k, litWith v)]) =
        Except.ok (Datum.obj (mapOverwrite xs k v)) ∧
    getFieldD (Datum.obj (mapOverwrite xs k v)) k = some v ∧
    mergeD (Datum.obj xs) (Datum.obj [(k, litEmpty)]) =
        Except.ok (Datum.obj (mapErase xs k)) ∧
    getFieldD (Datum.obj (mapErase xs k)) k = none := by
  have hrk : memcmpBytes reqlTypeKey k ≠ 0 := by
    rw [memcmp_neg k reqlTypeKey]
    omega
  have hbp : builderOfPairs xs = xs := by
    have h := builderOfPairs_sorted xs [] (by simpa using hs)
    simpa [builderOfPairs] using h
  have hb0 : bsearchF xs reqlTypeKey 0 xs.length = none := by
    rcases hcase : bsearchF xs reqlTypeKey 0 xs.length with _ | w
    · rfl
    · simp only [isPtype, hcase] at hnp
      simp at hnp
  have hnone : mapFind xs reqlTypeKey = none := by
    rw [← getField_sorted xs reqlTypeKey hs]
    exact hb0
  have hcsv : checkStrValidity k = Except.ok () := by
    rw [checkStrValidity, if_neg hnul]
  have hdv : dropLiterals v = Except.ok (some v, false) :=
    dropLiterals_litFree v hv
  have hms1 : mergeScalar xs k (litWith v) true =
      Except.ok (mapOverwrite xs k v) := by
    have h := mergeScalarLitWith xs k v (some v) false hdv
    rw [h, if_neg (show ¬(false = true) from by decide)]
    dsimp only
    rw [obOverwrite, hcsv, exBindOk]
    rfl
  have hmp1 : mergePairs xs [(k, litWith v)] =
      Except.ok (mapOverwrite xs k v) :=
    mergePairsLit xs k (litWith v) rfl rfl _ hms1
  have hsort1 : sortedPairs (mapOverwrite xs k v) := sorted_overwrite xs k v hs
  have hfind1 : mapFind (mapOverwrite xs k v) reqlTypeKey = none := by
    rw [mapFind_overwrite_other xs k reqlTypeKey v hrk]
    exact hnone
  have hpt1 : isPtype (Datum.obj (mapOverwrite xs k v)) = false := by
    have hbf : getFieldD (Datum.obj (mapOverwrite xs k v)) reqlTypeKey =
        none := by
      rw [getField_sorted _ _ hsort1]
      exact hfind1
    simp only [isPtype]
    rw [show bsearchF (mapOverwrite xs k v) reqlTypeKey 0
        (mapOverwrite xs k v).length = none from hbf]
    rfl
  have hmerge1 : mergeD (Datum.obj xs) (Datum.obj [(k, litWith v)]) =
      Except.ok (Datum.obj (mapOverwrite xs k v)) := by
    rw [mergeD, hbp, hmp1, exBindOk, objBuilderToDatum, hpt1,
      if_neg (show ¬(false = true) from by decide)]
  have hget1 : getFieldD (Datum.obj (mapOverwrite xs k v)) k = some v := by
    rw [getField_sorted _ _ hsort1]
    exact mapFind_overwrite_self xs k v
  have hmp2 : mergePairs xs [(k, litEmpty)] = Except.ok (mapErase xs k) :=
    mergePairsLit xs k litEmpty rfl rfl _ (mergeScalarLitEmpty xs k)
  have hsort2 : sortedPairs (mapErase xs k) := sorted_erase xs k hs
  have hfind2 : mapFind (mapErase xs k) reqlTypeKey = none := by
    rw [mapFind_erase_other xs k reqlTypeKey hrk]
    exact hnone
  have hpt2 : isPtype (Datum.obj (mapErase xs k)) = false := by
    have hbf : getFieldD (Datum.obj (mapErase xs k)) reqlTypeKey = none := by
      rw [getField_sorted _ _ hsort2]
      exact hfind2
    simp only [isPtype]
    rw [show bsearchF (mapErase xs k) reqlTypeKey 0
        (mapErase xs k).length = none from hbf]
    rfl
  have hmerge2 : mergeD (Datum.obj xs) (Datum.obj [(k, litEmpty)]) =
      Except.ok (Datum.obj (mapErase xs k)) := by
    rw [mergeD, hbp, hmp2, exBindOk, objBuilderToDatum, hpt2,
      if_neg (show ¬(false = true) from by decide)]
  have hget2 : getFieldD (Datum.obj (mapErase xs k)) k = none := by
    rw [getField_sorted _ _ hsort2]
    exact mapFind_erase_self xs k hs
  exact ⟨hmerge1, hget1, hmerge2, hget2⟩

/-- Witness for the amended literal law at x = {}, k = "k", v = "x". -/
theorem c4_literal_law_witness :
    mergeD (Datum.obj []) (Datum.obj [([107], litWith (Datum.str [120]))]) =
        Except.ok (Datum.obj (mapOverwrite [] [107] (Datum.str [120]))) ∧
    getFieldD (Datum.obj (mapOverwrite [] [107] (Datum.str [120]))) [107] =
        some (Datum.str [120]) ∧
    mergeD (Datum.obj []) (Datum.obj [([107], litEmpty)]) =
        Except.ok (Datum.obj (mapErase [] [107])) ∧
    getFieldD (Datum.obj (mapErase [] [107])) [107] = none :=
  c4_literal_law [] [107] (Datum.str [120]) List.Pairwise.nil rfl
    (by decide) (by decide) (by simp [litFree])

theorem LtB_append (xs ys s1 s2 : List Nat) (h : LtB xs ys) :
    LtB (xs ++ s1) (ys ++ s2) := by
  obtain ⟨p, x, y, xs2, ys2, hx, hy, hxy⟩ := h
  exact ⟨p, x, y, xs2 ++ s1, ys2 ++ s2, by simp [hx], by simp [hy], hxy⟩

theorem LtB_prepend (p0 xs ys : List Nat) (h : LtB xs ys) :
    LtB (p0 ++ xs) (p0 ++ ys) := by
  obtain ⟨p, x, y, xs2, ys2, hx, hy, hxy⟩ := h
  exact ⟨p0 ++ p, x, y, xs2, ys2, by simp [hx], by simp [hy], hxy⟩

theorem LtB_cons (c : Nat) (xs ys : List Nat) (h : LtB xs ys) :
    LtB (c :: xs) (c :: ys) := LtB_prepend [c] xs ys h

theorem LtB_at_head (x y : Nat) (xs ys : List Nat) (hxy : x < y) :
    LtB (x :: xs) (y :: ys) := ⟨[], x, y, xs, ys, rfl, rfl, hxy⟩

theorem ltb_memcmp (xs ys : List Nat) (h : LtB xs ys) :
    memcmpBytes xs ys = -1 := by
  obtain ⟨p, x, y, xs2, ys2, hx, hy, hxy⟩ := h
  subst hx
  subst hy
  induction p with
  | nil => simp [memcmpBytes, hxy]
  | cons c p ih => simpa [memcmpBytes] using ih

theorem memcmp_snoc0 :
    ∀ (xs ys : List Nat), memcmpBytes (xs ++ [0]) (ys ++ [0]) = -1 →
      memcmpBytes xs ys = -1 := by
  intro xs
  induction xs with
  | nil =>
    intro ys h
    cases ys with
    | nil => simp [memcmpBytes] at h
    | cons b bs => rfl
  | cons a as ih =>
    intro ys h
    cases ys with
    | nil =>
      simp only [List.nil_append, List.cons_append, memcmpBytes] at h
      rcases Nat.lt_trichotomy a 0 with h1 | h1 | h1
      · omega
      · subst h1
        rw [if_neg (by omega), if_neg (by omega)] at h
        cases as with
        | nil => simp [memcmpBytes] at h
        | cons c cs => simp [memcmpBytes] at h
      · rw [if_neg (by omega), if_pos h1] at h
        omega
    | cons b bs =>
      simp only [List.cons_append, memcmpBytes] at h ⊢
      by_cases h1 : a < b
      · rw [if_pos h1]
      · rw [if_neg h1] at h ⊢
        by_cases h2 : b < a
        · rw [if_pos h2] at h
          omega
        · rw [if_neg h2] at h ⊢
          exact ih bs h

theorem ltb_snoc0_memcmp (xs ys : List Nat)
    (h : LtB (xs ++ [0]) (ys ++ [0])) : memcmpBytes xs ys = -1 :=
  memcmp_snoc0 xs ys (ltb_memcmp _ _ h)

theorem memcmp_lt_structure :
    ∀ (xs ys : List Nat), memcmpBytes xs ys = -1 →
      LtB xs ys ∨ ∃ c r, ys = xs ++ c :: r := by
  intro xs
  induction xs with
  | nil =>
    intro ys h
    cases ys with
    | nil => simp [memcmpBytes] at h
    | cons b bs => exact Or.inr ⟨b, bs, rfl⟩
  | cons a as ih =>
    intro ys h
    cases ys with
    | nil => simp [memcmpBytes] at h
    | cons b bs =>
      simp only [memcmpBytes] at h
      by_cases h1 : a < b
      · exact Or.inl (LtB_at_head a b as bs h1)
      · rw [if_neg h1] at h
        by_cases h2 : b < a
        · rw [if_pos h2] at h
          omega
        · rw [if_neg h2] at h
          have hab : a = b := by omega
          subst hab
          rcases ih bs h with h3 | ⟨c, r, h3⟩
          · exact Or.inl (LtB_cons a as bs h3)
          · exact Or.inr ⟨c, r, by simp [h3]⟩

theorem pureEnc_head (d : Datum) (h : keyWf d = true) :
    ∃ t, pureEnc d = tagByte d :: t ∧ 0 < tagByte d := by
  cases d with
  | num bits => exact ⟨_, by rw [pureEnc]; rfl, by simp [tagByte]⟩
  | str s => exact ⟨s, by rw [pureEnc]; rfl, by simp [tagByte]⟩
  | bin s => exact ⟨_, by rw [pureEnc]; rfl, by simp [tagByte]⟩
  | bool b => exact ⟨_, by rw [pureEnc]; rfl, by simp [tagByte]⟩
  | arr l => exact ⟨_, by rw [pureEnc]; rfl, by simp [tagByte]⟩
  | null => rw [keyWf] at h; exact absurd h (by decide)
  | obj ps => rw [keyWf] at h; exact absurd h (by decide)

theorem escLt (a b : Nat) (u v : List Nat) (h : a < b) :
    LtB (escByte a ++ u) (escByte b ++ v) := by
  by_cases ha0 : a = 0
  · subst ha0
    by_cases hb1 : b = 1
    · subst hb1
      exact ⟨[1], 1, 2, u, v, rfl, rfl, by omega⟩
    · have hb2 : 2 ≤ b := by omega
      rw [show escByte b = [b] from by rw [escByte, if_neg (by omega), if_neg (by omega)]]
      exact LtB_at_head 1 b (1 :: u) v (by omega)
  · by_cases ha1 : a = 1
    · subst ha1
      have hb2 : 2 ≤ b := by omega
      rw [show escByte b = [b] from by rw [escByte, if_neg (by omega), if_neg (by omega)]]
      exact LtB_at_head 1 b (2 :: u) v (by omega)
    · have ha2 : 2 ≤ a := by omega
      rw [show escByte a = [a] from by rw [escByte, if_neg (by omega), if_neg (by omega)],
        show escByte b = [b] from by rw [escByte, if_neg (by omega), if_neg (by omega)]]
      exact LtB_at_head a b u v h

theorem escHead (c : Nat) : ∃ h t, escByte c = h :: t ∧ 0 < h := by
  by_cases hc0 : c = 0
  · exact ⟨1, [1], by rw [hc0]; rfl, by omega⟩
  · by_cases hc1 : c = 1
    · exact ⟨1, [2], by rw [hc1]; rfl, by omega⟩
    · exact ⟨c, [], by rw [escByte, if_neg hc0, if_neg hc1], by omega⟩

theorem escOrder :
    ∀ (s t : List Nat), memcmpBytes s t = -1 →
      LtB (s.flatMap escByte ++ [0]) (t.flatMap escByte ++ [0]) := by
  intro s
  induction s with
  | nil =>
    intro t h
    cases t with
    | nil => simp [memcmpBytes] at h
    | cons b bs =>
      obtain ⟨hd, tl, hesc, hpos⟩ := escHead b
      simp only [List.flatMap_nil, List.flatMap_cons, List.nil_append, hesc]
      exact LtB_at_head 0 hd [] (tl ++ bs.flatMap escByte ++ [0]) hpos
  | cons a as ih =>
    intro t h
    cases t with
    | nil => simp [memcmpBytes] at h
    | cons b bs =>
      simp only [memcmpBytes] at h
      simp only [List.flatMap_cons]
      by_cases h1 : a < b
      · rw [List.append_assoc, List.append_assoc]
        exact escLt a b _ _ h1
      · rw [if_neg h1] at h
        by_cases h2 : b < a
        · rw [if_pos h2] at h
          omega
        · rw [if_neg h2] at h
          have hab : a = b := by omega
          subst hab
          rw [List.append_assoc, List.append_assoc]
          exact LtB_prepend (escByte a) _ _ (ih bs h)

theorem hexChar_lt (d1 d2 : Nat) (h : d1 < d2) (h2 : d2 < 16) :
    hexChar d1 < hexChar d2 := by
  rw [hexChar, hexChar]
  by_cases hc1 : d1 < 10
  · rw [if_pos hc1]
    by_cases hc2 : d2 < 10
    · rw [if_pos hc2]; omega
    · rw [if_neg hc2]; omega
  · rw [if_neg hc1, if_neg (by omega)]
    omega

theorem hexBE_mono :
    ∀ (k u v : Nat), u < v → v < 16 ^ k →
      LtB (hexDigitsBE k u) (hexDigitsBE k v) := by
  intro k
  induction k with
  | zero =>
    intro u v h hv
    simp at hv
    omega
  | succ k ih =>
    intro u v h hv
    have hpos : 0 < 16 ^ k := Nat.pos_pow_of_pos k (by omega)
    have hdle : u / 16 ^ k ≤ v / 16 ^ k := Nat.div_le_div_right (by omega)
    have hdv : v / 16 ^ k < 16 := by
      rw [Nat.div_lt_iff_lt_mul hpos]
      calc v < 16 ^ (k + 1) := hv
        _ = 16 * 16 ^ k := by rw [pow_succ]; ring
  -- main split
    rcases Nat.lt_or_ge (u / 16 ^ k) (v / 16 ^ k) with hlt | hge
    · simp only [hexDigitsBE]
      exact LtB_at_head _ _ _ _ (hexChar_lt _ _ hlt hdv)
    · have hdeq : u / 16 ^ k = v / 16 ^ k := by omega
      have hu := Nat.div_add_mod u (16 ^ k)
      have hv2 := Nat.div_add_mod v (16 ^ k)
      rw [hdeq] at hu
      have hmod : u % 16 ^ k < v % 16 ^ k := by omega
      have hmv : v % 16 ^ k < 16 ^ k := Nat.mod_lt _ hpos
      simp only [hexDigitsBE]
      rw [hdeq]
      exact LtB_cons _ _ _ (ih _ _ hmod hmv)

theorem mangle_lt (x : Nat) (hx : x < 2 ^ 64) : mangleBits x < 2 ^ 64 := by
  rw [mangleBits]
  by_cases h : 2 ^ 63 ≤ x
  · rw [if_pos h]
    omega
  · rw [if_neg h]
    omega

theorem mangle_inj (x y : Nat) (hx : x < 2 ^ 64) (hy : y < 2 ^ 64)
    (h : mangleBits x = mangleBits y) : x = y := by
  rw [mangleBits, mangleBits] at h
  by_cases h1 : 2 ^ 63 ≤ x
  · rw [if_pos h1] at h
    by_cases h2 : 2 ^ 63 ≤ y
    · rw [if_pos h2] at h
      omega
    · rw [if_neg h2] at h
      omega
  · rw [if_neg h1] at h
    by_cases h2 : 2 ^ 63 ≤ y
    · rw [if_pos h2] at h
      omega
    · rw [if_neg h2] at h
      omega

theorem doubleCmp_mangle (x y : Nat) (hx : x < 2 ^ 64) (hy : y < 2 ^ 64)
    (hnx : x ≠ negZeroBits) (hny : y ≠ negZeroBits) :
    doubleCmp x y = ordCmp (mangleBits x) (mangleBits y) := by
  rw [negZeroBits] at hnx hny
  simp only [doubleCmp, mangleBits, ordCmp]
  split_ifs <;> omega

theorem modernCmp_num_num (x y : Nat) :
    modernCmp (Datum.num x) (Datum.num y) = Except.ok (doubleCmp x y) := by
  rw [modernCmp]
  rw [show cmpAsPtype (Datum.num x) = Except.ok false from rfl, exBindOk]
  rw [show cmpAsPtype (Datum.num y) = Except.ok false from rfl, exBindOk]
  rw [if_neg (by decide), if_neg (by decide),
    if_neg (show ¬(typeRank (Datum.num x) ≠ typeRank (Datum.num y)) from by
      simp [typeRank])]
  rfl

theorem modernCmp_str_str (x y : List Nat) :
    modernCmp (Datum.str x) (Datum.str y) = Except.ok (memcmpBytes x y) := by
  rw [modernCmp]
  rw [show cmpAsPtype (Datum.str x) = Except.ok false from rfl, exBindOk]
  rw [show cmpAsPtype (Datum.str y) = Except.ok false from rfl, exBindOk]
  rw [if_neg (by decide), if_neg (by decide),
    if_neg (show ¬(typeRank (Datum.str x) ≠ typeRank (Datum.str y)) from by
      simp [typeRank])]
  rfl

theorem modernCmp_bool_bool (x y : Bool) :
    modernCmp (Datum.bool x) (Datum.bool y) =
      Except.ok (ordCmp (boolRank x) (boolRank y)) := by
  rw [modernCmp]
  rw [show cmpAsPtype (Datum.bool x) = Except.ok false from rfl, exBindOk]
  rw [show cmpAsPtype (Datum.bool y) = Except.ok false from rfl, exBindOk]
  rw [if_neg (by decide), if_neg (by decide),
    if_neg (show ¬(typeRank (Datum.bool x) ≠ typeRank (Datum.bool y)) from by
      simp [typeRank])]
  rfl

theorem modernCmp_arr_arr (x y : List Datum) :
    modernCmp (Datum.arr x) (Datum.arr y) = modernCmpList x y := by
  rw [modernCmp]
  rw [show cmpAsPtype (Datum.arr x) = Except.ok false from rfl, exBindOk]
  rw [show cmpAsPtype (Datum.arr y) = Except.ok false from rfl, exBindOk]
  rw [if_neg (by decide), if_neg (by decide),
    if_neg (show ¬(typeRank (Datum.arr x) ≠ typeRank (Datum.arr y)) from by
      simp [typeRank])]

theorem modernCmp_bin_bin (s t : List Nat) :
    modernCmp (Datum.bin s) (Datum.bin t) = Except.ok (memcmpBytes s t) := by
  rw [modernCmp]
  rw [show cmpAsPtype (Datum.bin s) = Except.ok true from rfl, exBindOk]
  rw [show cmpAsPtype (Datum.bin t) = Except.ok true from rfl, exBindOk]
  rw [if_pos (by decide)]
  rw [show getReqlType (Datum.bin s) = Except.ok binaryName from rfl, exBindOk]
  rw [show getReqlType (Datum.bin t) = Except.ok binaryName from rfl, exBindOk]
  rw [if_neg (show ¬(binaryName ≠ binaryName) from by simp)]
  all_goals first | rfl | (intros; simp_all)

theorem modernCmp_mixed (a b : Datum)
    (hpa : cmpAsPtype a = Except.ok false) (hpb : cmpAsPtype b = Except.ok false)
    (hr : typeRank a ≠ typeRank b) :
    modernCmp a b = Except.ok (ordCmp (typeRank a) (typeRank b)) := by
  rw [modernCmp, hpa, exBindOk, hpb, exBindOk]
  rw [if_neg (by decide), if_neg (by decide), if_pos hr]
  all_goals first | rfl | (intros; simp_all [typeRank])

theorem typeName_nonPt (b : Datum) (hnb : isPtype b = false) :
    typeName b = Except.ok (rawTypeName b) := by
  rw [typeName, hnb]
  rfl

theorem modernCmp_bin_left (s : List Nat) (b : Datum)
    (hpb : cmpAsPtype b = Except.ok false) (hnb : isPtype b = false) :
    modernCmp (Datum.bin s) b =
      Except.ok (memcmpBytes (ptypeNamePre ++ binaryName ++ [62])
        (rawTypeName b)) := by
  rw [modernCmp]
  rw [show cmpAsPtype (Datum.bin s) = Except.ok true from rfl, exBindOk]
  rw [hpb, exBindOk]
  rw [if_neg (by decide), if_pos (by decide)]
  rw [show typeName (Datum.bin s) =
    Except.ok (ptypeNamePre ++ binaryName ++ [62]) from rfl, exBindOk]
  rw [typeName_nonPt b hnb, exBindOk]
  all_goals first | rfl | (intros; simp_all [isPtype])

theorem modernCmp_bin_right (a : Datum) (t : List Nat)
    (hpa : cmpAsPtype a = Except.ok false) (hna : isPtype a = false) :
    modernCmp a (Datum.bin t) =
      Except.ok (memcmpBytes (rawTypeName a)
        (ptypeNamePre ++ binaryName ++ [62])) := by
  rw [modernCmp]
  rw [hpa, exBindOk]
  rw [show cmpAsPtype (Datum.bin t) = Except.ok true from rfl, exBindOk]
  rw [if_neg (by decide), if_pos (by decide)]
  rw [typeName_nonPt a hna, exBindOk]
  rw [show typeName (Datum.bin t) =
    Except.ok (ptypeNamePre ++ binaryName ++ [62]) from rfl, exBindOk]
  all_goals first | rfl | (intros; simp_all [isPtype])

theorem app2_extends (x y z : List Nat) : ∃ t, (x ++ y) ++ z = x ++ t :=
  ⟨y ++ z, by simp⟩

theorem escLen (c : Nat) : 1 ≤ (escByte c).length := by
  rw [escByte]
  split_ifs <;> simp

theorem escFlatLen : ∀ (l : List Nat), l.length ≤ (l.flatMap escByte).length := by
  intro l
  induction l with
  | nil => simp
  | cons c cs ih =>
    simp only [List.flatMap_cons, List.length_cons, List.length_append]
    have := escLen c
    omega

mutual

theorem keyAppend_extends :
    ∀ (acc : List Nat) (d : Datum) (r : List Nat),
      keyAppend acc d = Except.ok r → ∃ t, r = acc ++ t
  | acc, Datum.num bits, r => by
    rw [keyAppend]
    intro h
    simp only [Except.ok.injEq] at h
    subst h
    exact app2_extends acc _ _
  | acc, Datum.str s, r => by
    rw [keyAppend]
    intro h
    simp only [Except.ok.injEq] at h
    subst h
    exact app2_extends acc [83] _
  | acc, Datum.bin s, r => by
    rw [keyAppend]
    intro h
    simp only [Except.ok.injEq] at h
    subst h
    exact app2_extends acc binPre _
  | acc, Datum.bool b, r => by
    rw [keyAppend]
    intro h
    simp only [Except.ok.injEq] at h
    subst h
    exact ⟨_, rfl⟩
  | acc, Datum.arr l, r => by
    rw [keyAppend]
    intro h
    obtain ⟨t, ht⟩ := arrLoop_extends (acc ++ [65]) l r h
    exact ⟨[65] ++ t, by rw [ht]; simp⟩
  | acc, Datum.obj ps, r => by
    rw [keyAppend]
    intro h
    by_cases hpt : isPtype (Datum.obj ps) = true
    · rw [if_pos hpt] at h
      rw [ptKeyAppend] at h
      cases hg : getReqlType (Datum.obj ps) with
      | error e =>
        rw [hg, exBindErr] at h
        simp at h
      | ok rt =>
        rw [hg, exBindOk] at h
        by_cases ht : rt = timeName
        · rw [if_pos ht] at h
          simp [timeToStrKeyModel] at h
        · rw [if_neg ht] at h
          simp at h
    · rw [if_neg hpt] at h
      simp at h
  | acc, Datum.null, r => by
    rw [keyAppend]
    intro h
    simp at h
  termination_by acc d r => sizeOf d

theorem arrLoop_extends :
    ∀ (acc : List Nat) (l : List Datum) (r : List Nat),
      arrLoop acc l = Except.ok r → ∃ t, r = acc ++ t
  | acc, [], r => by
    rw [arrLoop]
    intro h
    simp only [Except.ok.injEq] at h
    exact ⟨[], by simp [h]⟩
  | acc, d :: ds, r => by
    rw [arrLoop]
    intro h
    by_cases hlen : acc.length < MAX_KEY_SIZE
    · rw [if_pos hlen] at h
      cases hk : keyAppend acc d with
      | error e =>
        rw [hk, exBindErr] at h
        simp at h
      | ok acc2 =>
        rw [hk, exBindOk] at h
        obtain ⟨t1, ht1⟩ := keyAppend_extends acc d acc2 hk
        obtain ⟨t2, ht2⟩ := arrLoop_extends (acc2 ++ [0]) ds r h
        exact ⟨t1 ++ [0] ++ t2, by rw [ht2, ht1]; simp⟩
    · rw [if_neg hlen] at h
      simp only [Except.ok.injEq] at h
      exact ⟨[], by simp [h]⟩
  termination_by acc l r => sizeOf l

end

mutual

theorem keyAppend_pure :
    ∀ (acc : List Nat) (d : Datum) (r : List Nat),
      keyAppend acc d = Except.ok r → r.length < MAX_KEY_SIZE →
      r = acc ++ pureEnc d
  | acc, Datum.num bits, r => by
    rw [keyAppend]
    intro h _
    simp only [Except.ok.injEq] at h
    subst h
    rw [pureEnc]
    simp [numKeyAppend]
  | acc, Datum.str s, r => by
    rw [keyAppend]
    intro h hlen
    simp only [Except.ok.injEq] at h
    subst h
    rw [pureEnc]
    simp only [strKeyAppend] at hlen ⊢
    by_cases hc : (acc ++ [83]).length ≤ MAX_KEY_SIZE
    · rw [if_pos hc] at hlen ⊢
      by_cases hs2 : s.length ≤ MAX_KEY_SIZE - (acc ++ [83]).length
      · rw [List.take_of_length_le hs2]
        simp
      · exfalso
        rw [List.length_append, List.length_take] at hlen
        omega
    · rw [if_neg hc] at hlen ⊢
      rw [List.take_length]
      simp
  | acc, Datum.bin s, r => by
    rw [keyAppend]
    intro h hlen
    simp only [Except.ok.injEq] at h
    subst h
    rw [pureEnc]
    simp only [binKeyAppend] at hlen ⊢
    by_cases hc : (acc ++ binPre).length ≤ MAX_KEY_SIZE
    · rw [if_pos hc] at hlen ⊢
      by_cases hs2 : s.length ≤ MAX_KEY_SIZE - (acc ++ binPre).length
      · rw [List.take_of_length_le hs2]
        simp
      · exfalso
        have h1 := escFlatLen (s.take (MAX_KEY_SIZE - (acc ++ binPre).length))
        rw [List.length_take] at h1
        rw [List.length_append] at hlen
        omega
    · rw [if_neg hc] at hlen ⊢
      rw [List.take_length]
      simp
  | acc, Datum.bool b, r => by
    rw [keyAppend]
    intro h _
    simp only [Except.ok.injEq] at h
    subst h
    rw [pureEnc]
    rfl
  | acc, Datum.arr l, r => by
    rw [keyAppend]
    intro h hlen
    rw [pureEnc]
    have h2 := arrLoop_pure (acc ++ [65]) l r h hlen
    rw [h2]
    simp
  | acc, Datum.obj ps, r => by
    rw [keyAppend]
    intro h _
    by_cases hpt : isPtype (Datum.obj ps) = true
    · rw [if_pos hpt] at h
      rw [ptKeyAppend] at h
      cases hg : getReqlType (Datum.obj ps) with
      | error e =>
        rw [hg, exBindErr] at h
        simp at h
      | ok rt =>
        rw [hg, exBindOk] at h
        by_cases ht : rt = timeName
        · rw [if_pos ht] at h
          simp [timeToStrKeyModel] at h
        · rw [if_neg ht] at h
          simp at h
    · rw [if_neg hpt] at h
      simp at h
  | acc, Datum.null, r => by
    rw [keyAppend]
    intro h _
    simp at h
  termination_by acc d r => sizeOf d

theorem arrLoop_pure :
    ∀ (acc : List Nat) (l : List Datum) (r : List Nat),
      arrLoop acc l = Except.ok r → r.length < MAX_KEY_SIZE →
      r = acc ++ pureEncList l
  | acc, [], r => by
    rw [arrLoop]
    intro h _
    simp only [Except.ok.injEq] at h
    rw [pureEncList]
    simp [h]
  | acc, d :: ds, r => by
    rw [arrLoop]
    intro h hlen
    by_cases hc : acc.length < MAX_KEY_SIZE
    · rw [if_pos hc] at h
      cases hk : keyAppend acc d with
      | error e =>
        rw [hk, exBindErr] at h
        simp at h
      | ok acc2 =>
        rw [hk, exBindOk] at h
        obtain ⟨t2, ht2⟩ := arrLoop_extends (acc2 ++ [0]) ds r h
        have hrlen : r.length = acc2.length + 1 + t2.length := by
          rw [ht2]
          simp only [List.length_append, List.length_cons, List.length_nil]
        have hacc2len : acc2.length < MAX_KEY_SIZE := by omega
        have hk2 := keyAppend_pure acc d acc2 hk hacc2len
        have hrec := arrLoop_pure (acc2 ++ [0]) ds r h hlen
        rw [pureEncList, hrec, hk2]
        simp
    · rw [if_neg hc] at h
      simp only [Except.ok.injEq] at h
      subst h
      omega
  termination_by acc l r => sizeOf l

end

theorem sizeOf_datum_pos (d : Datum) : 1 ≤ sizeOf d := by
  cases d <;> simp

theorem sizeOf_dlist_pos (l : List Datum) : 1 ≤ sizeOf l := by
  cases l with
  | nil => simp
  | cons c cs =>
    simp
    omega

theorem memcmp_lt_snoc (x y : List Nat) (h : memcmpBytes x y = -1)
    (hy : ∀ c ∈ y, c ≠ 0) : LtB (x ++ [0]) (y ++ [0]) := by
  rcases memcmp_lt_structure x y h with h1 | ⟨c, r, h1⟩
  · exact LtB_append x y [0] [0] h1
  · subst h1
    refine ⟨x, 0, c, [], r ++ [0], by simp, by simp, ?_⟩
    have := hy c (by simp)
    omega

theorem agree_mixed (a b : Datum) (ha : keyWf a = true) (hb : keyWf b = true)
    (hz : modernCmp a b = Except.ok (ordCmp (tagByte a) (tagByte b)))
    (hne : tagByte a ≠ tagByte b) : KeyAgrees a b := by
  obtain ⟨ta, hta, hpa⟩ := pureEnc_head a ha
  obtain ⟨tb, htb, hpb⟩ := pureEnc_head b hb
  rcases Nat.lt_or_ge (tagByte a) (tagByte b) with hlt | hge
  · have hval : ordCmp (tagByte a) (tagByte b) = -1 := by
      rw [ordCmp, if_neg hne, if_pos hlt]
    refine ⟨-1, by rw [hz, hval], Or.inl rfl, ?_, ?_, ?_⟩
    · intro h0
      exact absurd h0 (by decide)
    · intro _
      rw [hta, htb]
      exact LtB_at_head _ _ _ _ hlt
    · intro h1
      exact absurd h1 (by decide)
  · have hlt2 : tagByte b < tagByte a := by omega
    have hval : ordCmp (tagByte a) (tagByte b) = 1 := by
      rw [ordCmp, if_neg hne, if_neg (by omega)]
    refine ⟨1, by rw [hz, hval], Or.inr (Or.inr rfl), ?_, ?_, ?_⟩
    · intro h0
      exact absurd h0 (by decide)
    · intro h1
      exact absurd h1 (by decide)
    · intro _
      rw [hta, htb]
      exact LtB_at_head _ _ _ _ hlt2

theorem agree_num (x y : Nat) (hx : finiteBits x = true) (hy : finiteBits y = true)
    (hnx : x ≠ negZeroBits) (hny : y ≠ negZeroBits) :
    KeyAgrees (Datum.num x) (Datum.num y) := by
  rw [finiteBits] at hx hy
  simp only [Bool.and_eq_true, decide_eq_true_eq] at hx hy
  have hx64 : x < 2 ^ 64 := hx.1
  have hy64 : y < 2 ^ 64 := hy.1
  have h1616 : (16 : Nat) ^ 16 = 2 ^ 64 := by norm_num
  have hzeq : modernCmp (Datum.num x) (Datum.num y) =
      Except.ok (ordCmp (mangleBits x) (mangleBits y)) := by
    rw [modernCmp_num_num, doubleCmp_mangle x y hx64 hy64 hnx hny]
  have hmono : ∀ (u v : Nat), u < 2 ^ 64 → v < 2 ^ 64 →
      mangleBits u < mangleBits v →
      LtB (pureEnc (Datum.num u) ++ [0]) (pureEnc (Datum.num v) ++ [0]) := by
    intro u v hu hv hm
    have hmm := hexBE_mono 16 (mangleBits u) (mangleBits v) hm
      (by rw [h1616]; exact mangle_lt v hv)
    rw [pureEnc, pureEnc, List.append_assoc, List.append_assoc]
    exact LtB_cons 78 _ _ (LtB_append _ _ _ _ hmm)
  rcases Nat.lt_trichotomy (mangleBits x) (mangleBits y) with hlt | heq | hgt
  · refine ⟨-1, ?_, Or.inl rfl, ?_, ?_, ?_⟩
    · rw [hzeq, ordCmp, if_neg (by omega), if_pos hlt]
    · intro h0
      exact absurd h0 (by decide)
    · intro _
      exact hmono x y hx64 hy64 hlt
    · intro h1
      exact absurd h1 (by decide)
  · have hxy : x = y := mangle_inj x y hx64 hy64 heq
    subst hxy
    refine ⟨0, ?_, Or.inr (Or.inl rfl), ?_, ?_, ?_⟩
    · rw [hzeq, ordCmp, if_pos heq]
    · intro _
      rfl
    · intro h
      exact absurd h (by decide)
    · intro h
      exact absurd h (by decide)
  · refine ⟨1, ?_, Or.inr (Or.inr rfl), ?_, ?_, ?_⟩
    · rw [hzeq, ordCmp, if_neg (by omega), if_neg (by omega)]
    · intro h0
      exact absurd h0 (by decide)
    · intro h1
      exact absurd h1 (by decide)
    · intro _
      exact hmono y x hy64 hx64 hgt

theorem agree_str (x y : List Nat)
    (hx : keyWf (Datum.str x) = true) (hy : keyWf (Datum.str y) = true) :
    KeyAgrees (Datum.str x) (Datum.str y) := by
  rw [keyWf] at hx hy
  simp only [List.all_eq_true, Bool.and_eq_true, decide_eq_true_eq] at hx hy
  have hx0 : ∀ c ∈ x, c ≠ 0 := fun c hc => (hx c hc).1
  have hy0 : ∀ c ∈ y, c ≠ 0 := fun c hc => (hy c hc).1
  rcases memcmp_cases x y with hc | hc | hc
  · refine ⟨-1, by rw [modernCmp_str_str, hc], Or.inl rfl, ?_, ?_, ?_⟩
    · intro h0
      exact absurd h0 (by decide)
    · intro _
      rw [pureEnc, pureEnc]
      exact LtB_cons 83 _ _ (memcmp_lt_snoc x y hc hy0)
    · intro h1
      exact absurd h1 (by decide)
  · have hxy : x = y := (memcmp_eq_zero_iff x y).mp hc
    subst hxy
    exact ⟨0, by rw [modernCmp_str_str, hc], Or.inr (Or.inl rfl),
      fun _ => rfl, fun h => absurd h (by decide), fun h => absurd h (by decide)⟩
  · have hc2 : memcmpBytes y x = -1 := by
      rw [memcmp_neg]
      omega
    refine ⟨1, by rw [modernCmp_str_str, hc], Or.inr (Or.inr rfl), ?_, ?_, ?_⟩
    · intro h0
      exact absurd h0 (by decide)
    · intro h1
      exact absurd h1 (by decide)
    · intro _
      rw [pureEnc, pureEnc]
      exact LtB_cons 83 _ _ (memcmp_lt_snoc y x hc2 hx0)

theorem agree_bin (s t : List Nat) : KeyAgrees (Datum.bin s) (Datum.bin t) := by
  rcases memcmp_cases s t with hc | hc | hc
  · refine ⟨-1, by rw [modernCmp_bin_bin, hc], Or.inl rfl, ?_, ?_, ?_⟩
    · intro h0
      exact absurd h0 (by decide)
    · intro _
      rw [pureEnc, pureEnc, List.append_assoc, List.append_assoc]
      exact LtB_prepend binPre _ _ (escOrder s t hc)
    · intro h1
      exact absurd h1 (by decide)
  · have hst : s = t := (memcmp_eq_zero_iff s t).mp hc
    subst hst
    exact ⟨0, by rw [modernCmp_bin_bin, hc], Or.inr (Or.inl rfl),
      fun _ => rfl, fun h => absurd h (by decide), fun h => absurd h (by decide)⟩
  · have hc2 : memcmpBytes t s = -1 := by
      rw [memcmp_neg]
      omega
    refine ⟨1, by rw [modernCmp_bin_bin, hc], Or.inr (Or.inr rfl), ?_, ?_, ?_⟩
    · intro h0
      exact absurd h0 (by decide)
    · intro h1
      exact absurd h1 (by decide)
    · intro _
      rw [pureEnc, pureEnc, List.append_assoc, List.append_assoc]
      exact LtB_prepend binPre _ _ (escOrder t s hc2)

theorem agree_bool (x y : Bool) : KeyAgrees (Datum.bool x) (Datum.bool y) := by
  cases x <;> cases y
  · exact ⟨0, by rw [modernCmp_bool_bool]; rfl, Or.inr (Or.inl rfl),
      fun _ => rfl, fun h => absurd h (by decide), fun h => absurd h (by decide)⟩
  · refine ⟨-1, by rw [modernCmp_bool_bool]; rfl, Or.inl rfl, ?_, ?_, ?_⟩
    · intro h0
      exact absurd h0 (by decide)
    · intro _
      rw [pureEnc, pureEnc]
      exact ⟨[66], 102, 116, [0], [0], rfl, rfl, by omega⟩
    · intro h1
      exact absurd h1 (by decide)
  · refine ⟨1, by rw [modernCmp_bool_bool]; rfl, Or.inr (Or.inr rfl), ?_, ?_, ?_⟩
    · intro h0
      exact absurd h0 (by decide)
    · intro h1
      exact absurd h1 (by decide)
    · intro _
      rw [pureEnc, pureEnc]
      exact ⟨[66], 102, 116, [0], [0], rfl, rfl, by omega⟩
  · exact ⟨0, by rw [modernCmp_bool_bool]; rfl, Or.inr (Or.inl rfl),
      fun _ => rfl, fun h => absurd h (by decide), fun h => absurd h (by decide)⟩

theorem agreeAux :
    ∀ (n : Nat) (a b : Datum), sizeOf a + sizeOf b ≤ n →
      keyWf a = true → keyWf b = true →
      noNegZero a = true → noNegZero b = true → KeyAgrees a b := by
  intro n
  induction n with
  | zero =>
    intro a b hsz _ _ _ _
    have h1 := sizeOf_datum_pos a
    have h2 := sizeOf_datum_pos b
    omega
  | succ n ih =>
    intro a b hsz ha hb hna hnb
    have ihList : ∀ (x y : List Datum),
        sizeOf x + sizeOf y ≤ n → keyWfList x = true → keyWfList y = true →
        noNegZeroList x = true → noNegZeroList y = true →
        KeyAgreesList x y := by
      intro x
      induction x with
      | nil =>
        intro y hsz2 hx hy hnx hny
        cases y with
        | nil =>
          exact ⟨0, by rw [modernCmpList]; rfl, Or.inr (Or.inl rfl),
            fun _ => rfl, fun h => absurd h (by decide),
            fun h => absurd h (by decide)⟩
        | cons b2 bs =>
          rw [keyWfList] at hy
          simp only [Bool.and_eq_true] at hy
          obtain ⟨tb, htb, hpb⟩ := pureEnc_head b2 hy.1
          refine ⟨-1, by rw [modernCmpList]; rfl, Or.inl rfl, ?_, ?_, ?_⟩
          · intro h
            exact absurd h (by decide)
          · intro _
            simp only [pureEncList]
            rw [htb]
            exact LtB_at_head 0 (tagByte b2) [] _ hpb
          · intro h
            exact absurd h (by decide)
      | cons a2 as ihx =>
        intro y hsz2 hx hy hnx hny
        cases y with
        | nil =>
          rw [keyWfList] at hx
          simp only [Bool.and_eq_true] at hx
          obtain ⟨ta, hta, hpa⟩ := pureEnc_head a2 hx.1
          refine ⟨1, by rw [modernCmpList]; rfl, Or.inr (Or.inr rfl), ?_, ?_, ?_⟩
          · intro h
            exact absurd h (by decide)
          · intro h
            exact absurd h (by decide)
          · intro _
            simp only [pureEncList]
            rw [hta]
            exact LtB_at_head 0 (tagByte a2) [] _ hpa
        | cons b2 bs =>
          rw [keyWfList] at hx hy
          rw [noNegZeroList] at hnx hny
          simp only [Bool.and_eq_true] at hx hy hnx hny
          have hszc : sizeOf a2 + sizeOf b2 ≤ n := by
            have h1 : sizeOf (a2 :: as) = 1 + sizeOf a2 + sizeOf as := by simp
            have h2 : sizeOf (b2 :: bs) = 1 + sizeOf b2 + sizeOf bs := by simp
            have h3 := sizeOf_dlist_pos as
            have h4 := sizeOf_dlist_pos bs
            omega
          obtain ⟨zc, hzc, htric, g0, gm1, gp1⟩ :=
            ih a2 b2 hszc hx.1 hy.1 hnx.1 hny.1
          have hre : ∀ (e L : List Nat),
              (e ++ 0 :: L) ++ [0] = (e ++ [0]) ++ (L ++ [0]) := by
            intro e L
            simp
          rcases htric with hzv | hzv | hzv
          · subst hzv
            refine ⟨-1, ?_, Or.inl rfl, ?_, ?_, ?_⟩
            · rw [modernCmpList, hzc, exBindOk, if_pos (by decide)]
              rfl
            · intro h
              exact absurd h (by decide)
            · intro _
              simp only [pureEncList]
              rw [hre, hre]
              exact LtB_append _ _ _ _ (gm1 rfl)
            · intro h
              exact absurd h (by decide)
          · subst hzv
            have henc := g0 rfl
            have hszr : sizeOf as + sizeOf bs ≤ n := by
              have h1 : sizeOf (a2 :: as) = 1 + sizeOf a2 + sizeOf as := by simp
              have h2 : sizeOf (b2 :: bs) = 1 + sizeOf b2 + sizeOf bs := by simp
              have h3 := sizeOf_datum_pos a2
              have h4 := sizeOf_datum_pos b2
              omega
            obtain ⟨z2, hz2, htri2, k0, km1, kp1⟩ :=
              ihx bs hszr hx.2 hy.2 hnx.2 hny.2
            refine ⟨z2, ?_, htri2, ?_, ?_, ?_⟩
            · rw [modernCmpList, hzc, exBindOk, if_neg (by decide)]
              exact hz2
            · intro h
              simp only [pureEncList]
              rw [henc, k0 h]
            · intro h
              simp only [pureEncList]
              rw [hre, hre, henc]
              exact LtB_prepend _ _ _ (km1 h)
            · intro h
              simp only [pureEncList]
              rw [hre, hre, henc]
              exact LtB_prepend _ _ _ (kp1 h)
          · subst hzv
            refine ⟨1, ?_, Or.inr (Or.inr rfl), ?_, ?_, ?_⟩
            · rw [modernCmpList, hzc, exBindOk, if_pos (by decide)]
              rfl
            · intro h
              exact absurd h (by decide)
            · intro h
              exact absurd h (by decide)
            · intro _
              simp only [pureEncList]
              rw [hre, hre]
              exact LtB_append _ _ _ _ (gp1 rfl)
    cases a with
    | null =>
      rw [keyWf] at ha
      simp at ha
    | obj ps =>
      rw [keyWf] at ha
      simp at ha
    | bool x =>
      cases b with
      | null => rw [keyWf] at hb; simp at hb
      | obj ps => rw [keyWf] at hb; simp at hb
      | bool y => exact agree_bool x y
      | num y =>
        exact agree_mixed (Datum.bool x) (Datum.num y) ha hb
          ((modernCmp_mixed (Datum.bool x) (Datum.num y) rfl rfl (by simp [typeRank])).trans rfl)
          (by simp [tagByte])
      | str s2 =>
        exact agree_mixed (Datum.bool x) (Datum.str s2) ha hb
          ((modernCmp_mixed (Datum.bool x) (Datum.str s2) rfl rfl (by simp [typeRank])).trans rfl)
          (by simp [tagByte])
      | bin t =>
        exact agree_mixed (Datum.bool x) (Datum.bin t) ha hb
          ((modernCmp_bin_right (Datum.bool x) t rfl rfl).trans rfl)
          (by simp [tagByte])
      | arr l2 =>
        exact agree_mixed (Datum.bool x) (Datum.arr l2) ha hb
          ((modernCmp_mixed (Datum.bool x) (Datum.arr l2) rfl rfl (by simp [typeRank])).trans rfl)
          (by simp [tagByte])
    | num x =>
      cases b with
      | null => rw [keyWf] at hb; simp at hb
      | obj ps => rw [keyWf] at hb; simp at hb
      | num y =>
        rw [keyWf] at ha hb
        rw [noNegZero] at hna hnb
        simp only [decide_eq_true_eq] at hna hnb
        exact agree_num x y ha hb hna hnb
      | bool y =>
        exact agree_mixed (Datum.num x) (Datum.bool y) ha hb
          ((modernCmp_mixed (Datum.num x) (Datum.bool y) rfl rfl (by simp [typeRank])).trans rfl)
          (by simp [tagByte])
      | str s2 =>
        exact agree_mixed (Datum.num x) (Datum.str s2) ha hb
          ((modernCmp_mixed (Datum.num x) (Datum.str s2) rfl rfl (by simp [typeRank])).trans rfl)
          (by simp [tagByte])
      | bin t =>
        exact agree_mixed (Datum.num x) (Datum.bin t) ha hb
          ((modernCmp_bin_right (Datum.num x) t rfl rfl).trans rfl)
          (by simp [tagByte])
      | arr l2 =>
        exact agree_mixed (Datum.num x) (Datum.arr l2) ha hb
          ((modernCmp_mixed (Datum.num x) (Datum.arr l2) rfl rfl (by simp [typeRank])).trans rfl)
          (by simp [tagByte])
    | str s1 =>
      cases b with
      | null => rw [keyWf] at hb; simp at hb
      | obj ps => rw [keyWf] at hb; simp at hb
      | str s2 => exact agree_str s1 s2 ha hb
      | bool y =>
        exact agree_mixed (Datum.str s1) (Datum.bool y) ha hb
          ((modernCmp_mixed (Datum.str s1) (Datum.bool y) rfl rfl (by simp [typeRank])).trans rfl)
          (by simp [tagByte])
      | num y =>
        exact agree_mixed (Datum.str s1) (Datum.num y) ha hb
          ((modernCmp_mixed (Datum.str s1) (Datum.num y) rfl rfl (by simp [typeRank])).trans rfl)
          (by simp [tagByte])
      | bin t =>
        exact agree_mixed (Datum.str s1) (Datum.bin t) ha hb
          ((modernCmp_bin_right (Datum.str s1) t rfl rfl).trans rfl)
          (by simp [tagByte])
      | arr l2 =>
        exact agree_mixed (Datum.str s1) (Datum.arr l2) ha hb
          ((modernCmp_mixed (Datum.str s1) (Datum.arr l2) rfl rfl (by simp [typeRank])).trans rfl)
          (by simp [tagByte])
    | bin s1 =>
      cases b with
      | null => rw [keyWf] at hb; simp at hb
      | obj ps => rw [keyWf] at hb; simp at hb
      | bin t => exact agree_bin s1 t
      | bool y =>
        exact agree_mixed (Datum.bin s1) (Datum.bool y) ha hb
          ((modernCmp_bin_left s1 (Datum.bool y) rfl rfl).trans rfl)
          (by simp [tagByte])
      | num y =>
        exact agree_mixed (Datum.bin s1) (Datum.num y) ha hb
          ((modernCmp_bin_left s1 (Datum.num y) rfl rfl).trans rfl)
          (by simp [tagByte])
      | str s2 =>
        exact agree_mixed (Datum.bin s1) (Datum.str s2) ha hb
          ((modernCmp_bin_left s1 (Datum.str s2) rfl rfl).trans rfl)
          (by simp [tagByte])
      | arr l2 =>
        exact agree_mixed (Datum.bin s1) (Datum.arr l2) ha hb
          ((modernCmp_bin_left s1 (Datum.arr l2) rfl rfl).trans rfl)
          (by simp [tagByte])
    | arr l1 =>
      cases b with
      | null => rw [keyWf] at hb; simp at hb
      | obj ps => rw [keyWf] at hb; simp at hb
      | bool y =>
        exact agree_mixed (Datum.arr l1) (Datum.bool y) ha hb
          ((modernCmp_mixed (Datum.arr l1) (Datum.bool y) rfl rfl (by simp [typeRank])).trans rfl)
          (by simp [tagByte])
      | num y =>
        exact agree_mixed (Datum.arr l1) (Datum.num y) ha hb
          ((modernCmp_mixed (Datum.arr l1) (Datum.num y) rfl rfl (by simp [typeRank])).trans rfl)
          (by simp [tagByte])
      | str s2 =>
        exact agree_mixed (Datum.arr l1) (Datum.str s2) ha hb
          ((modernCmp_mixed (Datum.arr l1) (Datum.str s2) rfl rfl (by simp [typeRank])).trans rfl)
          (by simp [tagByte])
      | bin t =>
        exact agree_mixed (Datum.arr l1) (Datum.bin t) ha hb
          ((modernCmp_bin_right (Datum.arr l1) t rfl rfl).trans rfl)
          (by simp [tagByte])
      | arr l2 =>
        rw [keyWf] at ha hb
        rw [noNegZero] at hna hnb
        have hsz3 : sizeOf l1 + sizeOf l2 ≤ n := by
          have h1 : sizeOf (Datum.arr l1) = 1 + sizeOf l1 := by simp
          have h2 : sizeOf (Datum.arr l2) = 1 + sizeOf l2 := by simp
          omega
        obtain ⟨z, hz, htri, h0, hm1, hp1⟩ := ihList l1 l2 hsz3 ha hb hna hnb
        refine ⟨z, by rw [modernCmp_arr_arr]; exact hz, htri, ?_, ?_, ?_⟩
        · intro h
          rw [pureEnc, pureEnc, h0 h]
        · intro h
          rw [pureEnc, pureEnc]
          exact LtB_cons 65 _ _ (hm1 h)
        · intro h
          rw [pureEnc, pureEnc]
          exact LtB_cons 65 _ _ (hp1 h)

/-- Claim C1 (amended): key-order / value-order agreement away from -0.0.
For all well-formed primary-key-encodable datums a, b (NUM with finite
bits, NUL-free STR, BINARY, BOOL, and ARRAY of such — the variants whose
key encoders are in the source) in which no NUM subterm holds the -0.0 bit
pattern, if print_primary succeeds on both then the latest-version
comparator modern_cmp succeeds and the sign of the bytewise memcmp of the
two printed keys equals its answer.  The original claim's unrestricted
quantification fails at -0.0, which modern_cmp equates with +0.0 while the
two encode to different key bytes (see the counterexample). -/
theorem c1_key_order_agreement (a b : Datum) (ka kb : List Nat)
    (ha : keyWf a = true) (hb : keyWf b = true)
    (hna : noNegZero a = true) (hnb : noNegZero b = true)
    (hpa : printPrimary a = Except.ok ka)
    (hpb : printPrimary b = Except.ok kb) :
    ∃ z, modernCmp a b = Except.ok z ∧ memcmpBytes ka kb = z := by
  have hkey : ∀ (d : Datum) (k : List Nat), printPrimary d = Except.ok k →
      k = pureEnc d := by
    intro d k hp
    rw [printPrimary] at hp
    cases hk : keyAppend [] d with
    | error e =>
      rw [hk, exBindErr] at hp
      simp at hp
    | ok s =>
      rw [hk, exBindOk] at hp
      by_cases hlen : MAX_PRIMARY_KEY_SIZE < s.length
      · rw [if_pos hlen] at hp
        simp at hp
      · rw [if_neg hlen] at hp
        simp only [exPure, Except.ok.injEq] at hp
        subst hp
        have hlen2 : s.length < MAX_KEY_SIZE := by
          rw [MAX_PRIMARY_KEY_SIZE] at hlen
          rw [MAX_KEY_SIZE]
          omega
        simpa using keyAppend_pure [] d s hk hlen2
  have hka := hkey a ka hpa
  have hkb := hkey b kb hpb
  obtain ⟨z, hz, htri, h0, hm1, hp1⟩ :=
    agreeAux (sizeOf a + sizeOf b) a b le_rfl ha hb hna hnb
  refine ⟨z, hz, ?_⟩
  rcases htri with hv | hv | hv
  · subst hv
    rw [hka, hkb]
    exact ltb_snoc0_memcmp _ _ (hm1 rfl)
  · subst hv
    rw [hka, hkb, h0 rfl]
    exact (memcmp_eq_zero_iff _ _).mpr rfl
  · subst hv
    rw [hka, hkb]
    have hlt := ltb_snoc0_memcmp _ _ (hp1 rfl)
    rw [memcmp_neg (pureEnc b) (pureEnc a)]
    omega

/-- Witness for the amended agreement at a = true, b = "a": modern_cmp
answers -1 (BOOL before STR) and the key bytes "Bt" sort below "Sa". -/
theorem c1_key_order_agreement_witness :
    ∃ z, modernCmp (Datum.bool true) (Datum.str [97]) = Except.ok z ∧
      memcmpBytes [66, 116] [83, 97] = z :=
  c1_key_order_agreement (Datum.bool true) (Datum.str [97]) [66, 116] [83, 97]
    (by simp [keyWf]) (by simp [keyWf])
    (by simp [noNegZero]) (by simp [noNegZero])
    (by simp only [printPrimary, keyAppend]; rfl)
    (by simp only [printPrimary, keyAppend]; rfl)

/-- Claim C1, counterexample: the claim quantifies over every pair of
primary-key-encodable datums, but for a = -0.0 (bit pattern 2^63) and
b = +0.0 the v1_16 comparator answers 0 (the two doubles are numerically
equal) while print_primary encodes the mangled bit patterns
7fffffffffffffff and 8000000000000000, whose memcmp is -1, so the signs
disagree. -/
theorem c1_neg_zero_counterexample :
    modernCmp (Datum.num negZeroBits) (Datum.num 0) = Except.ok 0 ∧
    ∃ ka kb, printPrimary (Datum.num negZeroBits) = Except.ok ka ∧
      printPrimary (Datum.num 0) = Except.ok kb ∧
      memcmpBytes ka kb = -1 := by
  refine ⟨?_, numKeyAppend [] negZeroBits, numKeyAppend [] 0, ?_, ?_, ?_⟩
  · rw [modernCmp_num_num]
    rfl
  · simp only [printPrimary, keyAppend]
    rfl
  · simp only [printPrimary, keyAppend]
    rfl
  · rfl
